import Mathlib

/-!
Verification of the jamjar target-database, dialect-parser and query layers.

The Python modules `jamjar/database.py`, `jamjar/parsers/_d5.py` and
`jamjar/parsers/__init__.py` are shallowly embedded below.  Targets and
rules are canonical per name inside one store, and equality of the Python
objects is name equality, so the heap is keyed by name: a `Database` is a
pair of insertion-ordered association lists.  Rule-call objects are owned
by their rule's `calls` list, so a call is identified by the pair
(rule name, index); every other place that holds a call object in Python
(frames, `caller`, `sub_calls`, targets) holds such a `CallId` here.
Python `set` fields are lists kept duplicate-free by a guarded insert.
The regex engine behind `re.search` is out of scope and is abstracted as
a validity oracle plus a match oracle passed to `find_targets`/`find_rules`;
everything else is translated directly from the source.
-/

namespace JamJar

/-- Python `str.split()` (split on whitespace runs, no empty words),
written by structural recursion over the character list so that it
evaluates in the kernel. -/
def wordsAux : List Char → List Char → List String
  | [], [] => []
  | [], acc => [String.mk acc.reverse]
  | c :: cs, acc =>
    if c.isWhitespace then
      match acc with
      | [] => wordsAux cs []
      | _ => String.mk acc.reverse :: wordsAux cs []
    else wordsAux cs (c :: acc)

/-- Python `line.split()`. -/
def pySplit (s : String) : List String := wordsAux s.toList []

/-- Python `s.startswith(p)`. -/
def pyStartsWith (s p : String) : Bool := p.toList.isPrefixOf s.toList

/-- Python `s.isdigit()` (restricted to ASCII digits, the only ones that
occur in dialect tokens). -/
def isDigitTok (s : String) : Bool := !s.toList.isEmpty && s.toList.all Char.isDigit

/-- Python `int(s)` for a digit string. -/
def pyToNat (s : String) : Nat := s.toList.foldl (fun n c => n * 10 + (c.toNat - 48)) 0

/-- First-match association-list lookup (Python dict access on our
name-keyed heaps). -/
def lookupA {β : Type} (k : String) : List (String × β) → Option β
  | [] => none
  | p :: ps => if p.1 = k then some p.2 else lookupA k ps

/-- Update the element at one index of a list (mutation of one member of
a Python list). -/
def listModify {α : Type} (f : α → α) : Nat → List α → List α
  | _, [] => []
  | 0, a :: as => f a :: as
  | i + 1, a :: as => a :: listModify f i as

/-- Python `set.add`: insert unless already present. -/
def insertIfAbsent (a : String) (l : List String) : List String :=
  if a ∈ l then l else a :: l

theorem lookupA_append {β : Type} (k : String) (l₁ l₂ : List (String × β)) :
    lookupA k (l₁ ++ l₂) =
      match lookupA k l₁ with
      | some v => some v
      | none => lookupA k l₂ := by
  induction l₁ with
  | nil => simp [lookupA]
  | cons p ps ih =>
    by_cases h : p.1 = k <;> simp [lookupA, h, ih]

theorem lookupA_mapSame {β : Type} (k m : String) (f : β → β) (l : List (String × β)) :
    lookupA m (l.map (fun p => if p.1 = k then (p.1, f p.2) else p)) =
      if m = k then (lookupA m l).map f else lookupA m l := by
  induction l with
  | nil => simp [lookupA]
  | cons p ps ih =>
    by_cases hk : p.1 = k <;> by_cases hm : p.1 = m
    · have hmk : m = k := hm.symm.trans hk
      simp [lookupA, hk, hm, hmk]
    · have hmk : ¬m = k := fun h => hm (hk.trans h.symm)
      have hkm : ¬k = m := fun h => hmk h.symm
      simp [lookupA, hk, hm, hmk, hkm, ih]
    · have hmk : ¬m = k := fun h => hk (hm.trans h)
      simp [lookupA, hk, hm, hmk]
    · simp [lookupA, hk, hm, ih]

/-- Map one dictionary entry in place (the image of mutating the object
stored under key `k`). -/
def mapEntry {β : Type} (k : String) (f : β → β) (l : List (String × β)) :
    List (String × β) :=
  l.map (fun p => if p.1 = k then (p.1, f p.2) else p)

theorem lookupA_mapEntry {β : Type} (k m : String) (f : β → β) (l : List (String × β)) :
    lookupA m (mapEntry k f l) = if m = k then (lookupA m l).map f else lookupA m l := by
  unfold mapEntry
  exact lookupA_mapSame k m f l

theorem listModify_getElem {α : Type} (f : α → α) (i j : Nat) (l : List α) :
    (listModify f i l)[j]? = if j = i then (l[i]?).map f else l[j]? := by
  induction l generalizing i j with
  | nil => simp [listModify]
  | cons a as ih =>
    cases i with
    | zero =>
      cases j with
      | zero => simp [listModify]
      | succ j => simp [listModify]
    | succ i =>
      cases j with
      | zero => simp [listModify]
      | succ j =>
        simp only [listModify, List.getElem?_cons_succ]
        rw [ih]
        simp [Nat.succ_inj]

theorem listModify_length {α : Type} (f : α → α) (i : Nat) (l : List α) :
    (listModify f i l).length = l.length := by
  induction l generalizing i with
  | nil => simp [listModify]
  | cons a as ih =>
    cases i with
    | zero => simp [listModify]
    | succ i => simp [listModify, ih]

/-! ## database.py -/

/-- Target names (Python object identity coincides with name equality for
store-canonical targets). -/
abbrev Name := String

/-- Identity of a `RuleCall`: owning rule name and its index in that
rule's `calls` list (`id_number` is assigned as `len(self.calls)`). -/
abbrev CallId := Name × Nat

/-- `class Target` from `database.py` (the fields the verified claims
touch; `deps_rev`/`incs_rev` are Python sets, modelled as duplicate-free
lists). -/
structure Target where
  name : Name
  deps : List Name := []
  deps_rev : List Name := []
  incs : List Name := []
  incs_rev : List Name := []
  rebuilt : Bool := false
  vars : List (String × List String) := []
  rule_calls : List (String × List CallId) := []
deriving DecidableEq

/-- `class RuleCall` from `database.py`. -/
structure RuleCall where
  rule : Name
  caller : Option CallId := none
  sub_calls : List CallId := []
  args : List (List Name)
  id_number : Nat
deriving DecidableEq

/-- `class Rule` from `database.py`. -/
structure Rule where
  name : Name
  calls : List RuleCall := []
deriving DecidableEq

/-- `class Database` from `database.py`: ordered dictionaries of targets
and rules, keyed by name. -/
structure Database where
  targets : List (Name × Target) := []
  rules : List (Name × Rule) := []
deriving DecidableEq

def emptyDb : Database := {}

/-- Registered target names, in store insertion order. -/
def Database.names (db : Database) : List Name := db.targets.map Prod.fst

/-- Dereference a target name (total: for names the store has never seen
it returns the state a fresh `Target(name)` would have, which is also
exactly what `get_target` would create). -/
def readTarget (db : Database) (n : Name) : Target :=
  (lookupA n db.targets).getD { name := n }

/-- In-place mutation of the target object named `n` (no-op on an
unregistered name, which has no object to mutate). -/
def modifyTarget (db : Database) (n : Name) (f : Target → Target) : Database :=
  { db with targets := mapEntry n f db.targets }

/-- `Database.get_target`: return the canonical target, creating and
registering it on first use. -/
def Database.get_target (db : Database) (n : Name) : Target × Database :=
  match lookupA n db.targets with
  | some t => (t, db)
  | none => ({ name := n }, { db with targets := db.targets ++ [(n, { name := n })] })

/-- `Target.add_dependency` (mutates the two canonical objects). -/
def Database.add_dependency (db : Database) (self other : Name) : Database :=
  if self ∈ (readTarget db other).deps_rev then db
  else
    let db₁ := modifyTarget db self (fun t => { t with deps := t.deps ++ [other] })
    modifyTarget db₁ other (fun t => { t with deps_rev := insertIfAbsent self t.deps_rev })

/-- `Target.add_inclusion`. -/
def Database.add_inclusion (db : Database) (self other : Name) : Database :=
  if self ∈ (readTarget db other).incs_rev then db
  else
    let db₁ := modifyTarget db self (fun t => { t with incs := t.incs ++ [other] })
    modifyTarget db₁ other (fun t => { t with incs_rev := insertIfAbsent self t.incs_rev })

/-- Python dict assignment `self.variables[variable_name] = values`
(replace in place, or append a new key at the end). -/
def assocSet (l : List (String × List String)) (k : String) (v : List String) :
    List (String × List String) :=
  if (lookupA k l).isSome then l.map (fun p => if p.1 = k then (k, v) else p) else l ++ [(k, v)]

/-- `Target.set_var_value` on the canonical target named `tn`. -/
def Database.set_var_value (db : Database) (tn : Name) (varName : String)
    (vals : List String) : Database :=
  modifyTarget db tn (fun t => { t with vars := assocSet t.vars varName vals })

/-- `Target.add_rule_call`. -/
def addRuleCallTag (t : Target) (tag : String) (cid : CallId) : Target :=
  if (lookupA tag t.rule_calls).isSome then
    { t with rule_calls := t.rule_calls.map (fun p => if p.1 = tag then (p.1, p.2 ++ [cid]) else p) }
  else
    { t with rule_calls := t.rule_calls ++ [(tag, [cid])] }

/-- `Database.get_rule`: non-creating lookup. -/
def Database.get_rule (db : Database) (n : Name) : Option Rule := lookupA n db.rules

/-- `Database.declare_rule`: get-or-create. -/
def Database.declare_rule (db : Database) (n : Name) : Database :=
  match lookupA n db.rules with
  | some _ => db
  | none => { db with rules := db.rules ++ [(n, { name := n })] }

/-- Dereference a call id. -/
def readCall (db : Database) (cid : CallId) : Option RuleCall :=
  (lookupA cid.1 db.rules).bind (fun r => r.calls.get? cid.2)

/-- In-place mutation of one call object. -/
def modifyCall (db : Database) (cid : CallId) (f : RuleCall → RuleCall) : Database :=
  { db with rules := mapEntry cid.1 (fun r => { r with calls := listModify f cid.2 r.calls }) db.rules }

/-- State threaded through `RuleCall.__init__`'s loop over `arg_list`. -/
structure ArgAcc where
  idx : Nat
  args : List (List Name)
  db : Database

/-- One iteration of `RuleCall.__init__`'s `for element in arg_list`
loop: `":"` opens a new argument group; any other token is resolved via
`get_target`, appended to the current group and back-linked into the
target's role-tagged `rule_calls` mapping. -/
def argStep (cid : CallId) (acc : ArgAcc) (element : String) : ArgAcc :=
  if element = ":" then { acc with args := acc.args ++ [[]], idx := acc.idx + 1 }
  else
    let db₁ := (acc.db.get_target element).2
    let role := if acc.idx = 0 then "target" else if acc.idx = 1 then "source" else "other"
    let db₂ := modifyTarget db₁ element (fun t => addRuleCallTag t role cid)
    { acc with db := db₂, args := listModify (fun g => g ++ [element]) acc.idx acc.args }

/-- `Rule.add_call` together with `RuleCall.__init__`: build the new call
(id = current length of `calls`), resolve its argument targets, then
append it to the rule's `calls` list.  Returns the new call's id. -/
def Database.add_call (db : Database) (rn : Name) (arg_list : List String) :
    CallId × Database :=
  match lookupA rn db.rules with
  | none => ((rn, 0), db)
  | some r =>
    let number := r.calls.length
    let cid : CallId := (rn, number)
    let acc := arg_list.foldl (argStep cid) ⟨0, [[]], db⟩
    let call : RuleCall :=
      { rule := rn, caller := none, sub_calls := [], args := acc.args, id_number := number }
    (cid, { acc.db with
            rules := mapEntry rn (fun r2 => { r2 with calls := r2.calls ++ [call] }) acc.db.rules })

/-- The fatal internal invariant violations of `database.py`
(`assert self.caller is None` in `RuleCall.set_caller`). -/
inductive DbError where
  | malformedCallerAssignment
deriving DecidableEq

/-- `RuleCall.set_caller`: may be applied at most once per call; a second
application trips the assertion. -/
def Database.set_caller (db : Database) (cid c : CallId) : Except DbError Database :=
  match readCall db cid with
  | none => .ok db
  | some call =>
    if call.caller.isSome then .error .malformedCallerAssignment
    else .ok (modifyCall db cid (fun k => { k with caller := some c }))

/-- `RuleCall.add_sub_call`. -/
def Database.add_sub_call (db : Database) (cid sub : CallId) : Database :=
  modifyCall db cid (fun k => { k with sub_calls := k.sub_calls ++ [sub] })

/-- Error surfaced by `find_targets`/`find_rules` on a pattern the regex
engine rejects (`re.error`, re-raised as `ValueError`). -/
inductive FindError where
  | invalidPattern
deriving DecidableEq

/-- The loop body of `find_targets`/`find_rules`: each iteration runs
`re.search` inside a `try`, so an invalid pattern raises on the first
element examined; a valid one filters by match. -/
def findAux (isValid : Bool) (hit : Name → Bool) : List Name → Except FindError (List Name)
  | [] => .ok []
  | n :: rest =>
    if isValid then
      match findAux isValid hit rest with
      | .error e => .error e
      | .ok r => .ok (if hit n then n :: r else r)
    else .error .invalidPattern

/-- `Database.find_targets`, with the regex engine abstracted as a
validity oracle `valid` and a search oracle `search` (Python
`re.search(pattern, name)` succeeding). -/
def Database.find_targets (valid : String → Bool) (search : String → Name → Bool)
    (db : Database) (pat : String) : Except FindError (List Name) :=
  findAux (valid pat) (search pat) db.names

/-- `Database.find_rules` (iterates the rules dictionary the same way). -/
def Database.find_rules (valid : String → Bool) (search : String → Name → Bool)
    (db : Database) (pat : String) : Except FindError (List Name) :=
  findAux (valid pat) (search pat) (db.rules.map Prod.fst)

/-! ## parsers/_d5.py -/

/-- One entry of `D5Parser.rule_stack` (a Python dict that may carry the
raw line under `"line"` and a call object under `"rule_call"`). -/
structure Frame where
  line : Option String := none
  rule_call : Option CallId := none
deriving DecidableEq

/-- The mutable state of a `D5Parser`: the shared database plus the
frame stack. -/
structure D5State where
  db : Database
  rule_stack : List Frame
deriving DecidableEq

/-- `D5Parser.get_rule_depth`: decode the call-nesting depth from the
length of the leading `>|`-marker word. -/
def get_rule_depth (word : String) : Nat :=
  if word.length % 2 = 0 then word.length / 2 else (35 + word.length) / 2

/-- `D5Parser.parse_decl_line` (`>>.. rule RuleName`); `some` is Python
`True` plus the mutated database. -/
def parse_decl_line (db : Database) (ws : List String) : Option Database :=
  match ws with
  | [_, w1, w2] => if w1 = "rule" then some (db.declare_rule w2) else none
  | _ => none

/-- Inner loop of `parse_set_line` over the target names. -/
def setLoop (varName : String) (vals : List String) (db : Database)
    (tnames : List String) : Database :=
  tnames.foldl (fun d tn => ((d.get_target tn).2).set_var_value tn varName vals) db

/-- `D5Parser.parse_set_line` (`>>.. set VARIABLE on Targets... = Values...`). -/
def parse_set_line (db : Database) (ws : List String) : Option Database :=
  if 5 < ws.length ∧ ws.get? 1 = some "set" ∧ ws.get? 3 = some "on" ∧ "=" ∈ ws.drop 5 then
    let idx := ws.indexOf "="
    some (setLoop ((ws.get? 2).getD "") (ws.drop (idx + 1)) db ((ws.take idx).drop 4))
  else none

/-- Inner loop of `parse_dep_line`: one left-hand target against every
right-hand token. -/
def depInner (x : Name) (db : Database) (ys : List Name) : Database :=
  ys.foldl (fun d y => ((d.get_target y).2).add_dependency x y) db

/-- Outer loop of `parse_dep_line`. -/
def depLoop (db : Database) (xs ys : List Name) : Database :=
  xs.foldl (fun d x => depInner x ((d.get_target x).2) ys) db

/-- `D5Parser.parse_dep_line` (`>>.. Depends x ... : y ...`). -/
def parse_dep_line (db : Database) (ws : List String) : Option Database :=
  if 3 < ws.length ∧ (ws.get? 1 = some "Depends" ∨ ws.get? 1 = some "DEPENDS")
      ∧ ":" ∈ ws.drop 3 then
    let idx := ws.indexOf ":"
    some (depLoop db ((ws.take idx).drop 2) (ws.drop (idx + 1)))
  else none

/-- Inner loop of `parse_inc_line`. -/
def incInner (x : Name) (db : Database) (ys : List Name) : Database :=
  ys.foldl (fun d y => ((d.get_target y).2).add_inclusion x y) db

/-- Outer loop of `parse_inc_line`. -/
def incLoop (db : Database) (xs ys : List Name) : Database :=
  xs.foldl (fun d x => incInner x ((d.get_target x).2) ys) db

/-- `D5Parser.parse_inc_line` (`>>.. Includes x ... : y ...`). -/
def parse_inc_line (db : Database) (ws : List String) : Option Database :=
  if 3 < ws.length ∧ (ws.get? 1 = some "Includes" ∨ ws.get? 1 = some "INCLUDES")
      ∧ ":" ∈ ws.drop 3 then
    let idx := ws.indexOf ":"
    some (incLoop db ((ws.take idx).drop 2) (ws.drop (idx + 1)))
  else none

/-- Mutate the last element of a list (`self.rule_stack[-1]`). -/
def modifyLast {α : Type} (f : α → α) : List α → List α
  | [] => []
  | [a] => [f a]
  | a :: b :: rest => a :: modifyLast f (b :: rest)

/-- `self.rule_stack[-2]` guarded by `len(self.rule_stack) > 1`. -/
def penult {α : Type} (l : List α) : Option α :=
  if 1 < l.length then l.get? (l.length - 2) else none

/-- The caller/sub-call linking of `parse_call_line`, given the call
recorded (or not) on the frame one level shallower: `set_caller` then
`add_sub_call`. -/
def linkPrev (db₁ : Database) (cid : CallId) : Option CallId → Except DbError Database
  | some prev =>
    match db₁.set_caller cid prev with
    | .error e => .error e
    | .ok db₂ => .ok (db₂.add_sub_call prev cid)
  | none => .ok db₁

/-- Caller linking guarded by `len(self.rule_stack) > 1` and
`"rule_call" in self.rule_stack[-2]`. -/
def linkFrame (db₁ : Database) (cid : CallId) : Option Frame → Except DbError Database
  | some f2 => linkPrev db₁ cid f2.rule_call
  | none => .ok db₁

/-- The tail of `D5Parser.parse_call_line` after the new call `cid` has
been appended (database state `db₁`): record the call on the innermost
frame, and if the frame one level shallower carries a call, link caller
and sub-call both ways. -/
def parse_call_aux (st : D5State) (cid : CallId) (db₁ : Database) :
    Except DbError D5State :=
  match linkFrame db₁ cid
      (penult (modifyLast (fun f => { f with rule_call := some cid }) st.rule_stack)) with
  | .error e => .error e
  | .ok db₂ =>
    .ok ⟨db₂, modifyLast (fun f => { f with rule_call := some cid }) st.rule_stack⟩

/-- `D5Parser.parse_call_line` (`>>.. RuleName {args...}`): on a line
whose second word names a declared rule, append a new call to that rule
and link it into the frame stack.  `ok none` is Python `False`
(no match). -/
def parse_call_line (st : D5State) (ws : List String) : Except DbError (Option D5State) :=
  match st.db.get_rule ((ws.get? 1).getD "") with
  | none => .ok none
  | some _ =>
    (parse_call_aux st (st.db.add_call ((ws.get? 1).getD "") (ws.drop 2)).1
      (st.db.add_call ((ws.get? 1).getD "") (ws.drop 2)).2).map some

/-- The classifier cascade of `D5Parser.parse_line`, run on the state
whose stack has already been trimmed and pushed: try the five line
classifiers in priority order, first match wins; a line matching none
leaves the database untouched. -/
def parse_line_classify (st₁ : D5State) (ws : List String) : Except DbError D5State :=
  match parse_decl_line st₁.db ws with
  | some db₂ => .ok ⟨db₂, st₁.rule_stack⟩
  | none =>
    match parse_set_line st₁.db ws with
    | some db₂ => .ok ⟨db₂, st₁.rule_stack⟩
    | none =>
      match parse_dep_line st₁.db ws with
      | some db₂ => .ok ⟨db₂, st₁.rule_stack⟩
      | none =>
        match parse_inc_line st₁.db ws with
        | some db₂ => .ok ⟨db₂, st₁.rule_stack⟩
        | none =>
          match parse_call_line st₁ ws with
          | .error e => .error e
          | .ok (some st₂) => .ok st₂
          | .ok none => .ok st₁

/-- Body of `D5Parser.parse_line` with the split word list explicit:
ignore short and non-`>` lines, trim the frame stack to the decoded
depth and push the line's frame, then run the classifiers. -/
def parse_line_words (st : D5State) (line : String) (ws : List String) :
    Except DbError D5State :=
  if ws.length < 2 then .ok st
  else if ¬pyStartsWith ((ws.get? 0).getD "") ">" then .ok st
  else
    parse_line_classify
      ⟨st.db, st.rule_stack.take (get_rule_depth ((ws.get? 0).getD ""))
        ++ [{ line := some line, rule_call := none }]⟩ ws

/-- `D5Parser.parse_line`. -/
def parse_line (st : D5State) (line : String) : Except DbError D5State :=
  parse_line_words st line (pySplit line)

/-- `D5Parser.parse_logfile`: reset the stack to one empty frame, then
feed every line of the file through `parse_line`. -/
def parse_logfile (db : Database) (lines : List String) : Except DbError Database :=
  match lines.foldlM parse_line ⟨db, [{}]⟩ with
  | .error e => .error e
  | .ok st => .ok st.db

/-! ## parsers/__init__.py -/

/-- The four registered parser classes. -/
inductive ParserCls where
  | dd
  | dc
  | dm
  | d5
deriving DecidableEq

/-- The `parser_clses` registry literal from `parse`. -/
def parser_clses : List (String × ParserCls) :=
  [("d", .dd), ("c", .dc), ("3", .dm), ("5", .d5)]

/-- `set.add` on the resolved parser set (kept as a duplicate-free list). -/
def insertP (P : ParserCls) (l : List ParserCls) : List ParserCls :=
  if P ∈ l then l else l ++ [P]

/-- Body of the `for num in range(2, int(parsers[i]) + 1)` loop in
`parse`: register the parser for level `num` if one exists, diagnose
otherwise. -/
def numStep (a : List ParserCls × List String) (num : Nat) :
    List ParserCls × List String :=
  match lookupA (toString num) parser_clses with
  | some P => (insertP P a.1, a.2)
  | none => (a.1, a.2 ++ ["No parser exists for option +" ++ toString num])

/-- One iteration of `parse`'s token loop at index `i`: mutate the
`(parsers_to_run, printed diagnostics)` accumulator. -/
def dispatchStep (ts : List String) (i : Nat) (acc : List ParserCls × List String) :
    List ParserCls × List String :=
  match ts.get? i with
  | none => acc
  | some tok =>
    if isDigitTok tok then
      if 0 < i ∧ ts.get? (i - 1) = some "+" then
        match lookupA tok parser_clses with
        | some P => (insertP P acc.1, acc.2)
        | none => (acc.1, acc.2 ++ ["No parser exists for option +" ++ tok])
      else
        (List.range' 2 (pyToNat tok + 1 - 2)).foldl numStep acc
    else
      match lookupA tok parser_clses with
      | some P => (insertP P acc.1, acc.2)
      | none =>
        if tok = "+" then acc
        else (acc.1, acc.2 ++ ["No parser exists for option " ++ tok])

/-- The whole token loop of `parse`. -/
def dispatchTokens (ts : List String) : List ParserCls × List String :=
  (List.range ts.length).foldl (fun acc i => dispatchStep ts i acc) ([], [])

/-- What the loop iteration for index `i` adds to the parser set. -/
def stepParsers (ts : List String) (i : Nat) : List ParserCls :=
  (dispatchStep ts i ([], [])).1

/-- What the loop iteration for index `i` prints. -/
def stepDiags (ts : List String) (i : Nat) : List String :=
  (dispatchStep ts i ([], [])).2

/-- The legacy-alias rewrite in `parse`: `m` appends `+` `3` and removes
the (first) `m`. -/
def rewriteM (ts : List String) : List String :=
  if "m" ∈ ts then (ts ++ ["+", "3"]).erase "m" else ts

/-- `parse`'s full dialect resolution: alias rewrite, then the token
loop. -/
def resolveDialects (ts : List String) : List ParserCls × List String :=
  dispatchTokens (rewriteM ts)

/-! ## query.py

Modelled from the spec: the query module is not part of the provided
sources (only its tests are), so `deps` follows §4.3 of the spec:
`target.deps` followed, for each target in `target.incs` in order, by the
recursively computed `deps(inc)`, the result deduplicated preserving
first occurrences; recursion is bounded by a fuel argument as the spec's
guard against inclusion cycles, and the exported `deps` uses enough fuel
for every acyclic store (one more than the store size). -/

/-- Deduplicate keeping the first occurrence of each element. -/
def dedupFirstAux (seen : List Name) : List Name → List Name
  | [] => []
  | x :: xs => if x ∈ seen then dedupFirstAux seen xs else x :: dedupFirstAux (x :: seen) xs

/-- Deduplicate a sequence preserving first-occurrence order. -/
def dedupFirst (l : List Name) : List Name := dedupFirstAux [] l

/-- Modelled from the spec: fuel-bounded effective-direct-dependency
computation (`query.deps`). -/
def depsFuel (db : Database) : Nat → Name → List Name
  | 0, _ => []
  | n + 1, t =>
    dedupFirst ((readTarget db t).deps ++ (readTarget db t).incs.flatMap (depsFuel db n))

/-- Modelled from the spec: `query.deps(target)`, with fuel sufficient
for any store whose inclusion relation is acyclic. -/
def deps (db : Database) (t : Name) : List Name :=
  depsFuel db (db.targets.length + 1) t

/-! ## Arithmetic facts about decimal rendering, used to analyse the
dispatcher's `str(num)` dictionary keys. -/

theorem digitChar_val (m : Nat) (h : m < 10) : (Nat.digitChar m).toNat - 48 = m := by
  interval_cases m <;> decide

theorem toDigitsCore_foldl (fuel : Nat) :
    ∀ n ds acc, n < fuel →
      ∃ e, (Nat.toDigitsCore 10 fuel n ds).foldl (fun a c => a * 10 + (c.toNat - 48)) acc =
        ds.foldl (fun a c => a * 10 + (c.toNat - 48)) (acc * 10 ^ e + n) := by
  induction fuel with
  | zero => intro n ds acc h; omega
  | succ fuel ih =>
    intro n ds acc h
    simp only [Nat.toDigitsCore]
    by_cases h10 : n / 10 = 0
    · rw [if_pos h10]
      refine ⟨1, ?_⟩
      simp only [List.foldl]
      rw [digitChar_val (n % 10) (Nat.mod_lt _ (by norm_num))]
      have hn : n % 10 = n := Nat.mod_eq_of_lt (by omega)
      rw [hn]
      norm_num
    · rw [if_neg h10]
      have hlt : n / 10 < fuel := by omega
      obtain ⟨e, he⟩ := ih (n / 10) (Nat.digitChar (n % 10) :: ds) acc hlt
      refine ⟨e + 1, ?_⟩
      rw [he]
      simp only [List.foldl]
      rw [digitChar_val (n % 10) (Nat.mod_lt _ (by norm_num))]
      have hsplit : n / 10 * 10 + n % 10 = n := by omega
      calc ds.foldl (fun a c => a * 10 + (c.toNat - 48)) ((acc * 10 ^ e + n / 10) * 10 + n % 10)
          = ds.foldl (fun a c => a * 10 + (c.toNat - 48))
              (acc * (10 ^ e * 10) + (n / 10 * 10 + n % 10)) := by congr 1; ring
        _ = ds.foldl (fun a c => a * 10 + (c.toNat - 48)) (acc * 10 ^ (e + 1) + n) := by
              rw [pow_succ, hsplit]

theorem pyToNat_toString (n : Nat) : pyToNat (toString n) = n := by
  obtain ⟨e, he⟩ := toDigitsCore_foldl (n + 1) n [] 0 (Nat.lt_succ_self n)
  show (Nat.toDigitsCore 10 (n + 1) n []).foldl (fun a c => a * 10 + (c.toNat - 48)) 0 = n
  rw [he]
  simp

theorem toString_natInj (m n : Nat) (h : toString m = toString n) : m = n := by
  have hm := pyToNat_toString m
  rw [h, pyToNat_toString n] at hm
  exact hm.symm

theorem lookupA_toString_clses (num : Nat) :
    lookupA (toString num) parser_clses =
      if num = 3 then some ParserCls.dm else if num = 5 then some ParserCls.d5 else none := by
  by_cases h3 : num = 3
  · subst h3; decide
  · by_cases h5 : num = 5
    · subst h5; decide
    · rw [if_neg h3, if_neg h5]
      have hd : ¬("d" = toString num) := by
        intro h
        have hp := pyToNat_toString num
        rw [← h] at hp
        have hv : pyToNat "d" = 52 := by decide
        rw [hv] at hp
        rw [← hp] at h
        exact absurd h (by decide)
      have hc : ¬("c" = toString num) := by
        intro h
        have hp := pyToNat_toString num
        rw [← h] at hp
        have hv : pyToNat "c" = 51 := by decide
        rw [hv] at hp
        rw [← hp] at h
        exact absurd h (by decide)
      have h3s : ¬("3" = toString num) :=
        fun h => h3 (toString_natInj num 3 (h.symm.trans (by decide)))
      have h5s : ¬("5" = toString num) :=
        fun h => h5 (toString_natInj num 5 (h.symm.trans (by decide)))
      simp [parser_clses, lookupA, hd, hc, h3s, h5s]

/-! ## Dispatcher lemmas -/

theorem mem_insertP (P Q : ParserCls) (l : List ParserCls) :
    P ∈ insertP Q l ↔ P ∈ l ∨ P = Q := by
  by_cases h : Q ∈ l
  · simp only [insertP, if_pos h]
    constructor
    · exact Or.inl
    · rintro (hp | rfl)
      · exact hp
      · exact h
  · simp [insertP, if_neg h]

theorem nodup_insertP (Q : ParserCls) (l : List ParserCls) (h : l.Nodup) :
    (insertP Q l).Nodup := by
  by_cases hq : Q ∈ l
  · simpa [insertP, if_pos hq] using h
  · simp only [insertP, if_neg hq]
    apply List.Nodup.append h (List.nodup_singleton Q)
    intro a ha hb
    rw [List.mem_singleton] at hb
    subst hb
    exact hq ha

theorem mem_numFold (nums : List Nat) (acc : List ParserCls × List String) (P : ParserCls) :
    P ∈ (nums.foldl numStep acc).1 ↔
      P ∈ acc.1 ∨ ∃ num ∈ nums, lookupA (toString num) parser_clses = some P := by
  induction nums generalizing acc with
  | nil => simp
  | cons n ns ih =>
    simp only [List.foldl]
    rw [ih]
    cases hl : lookupA (toString n) parser_clses with
    | none =>
      simp only [numStep, hl]
      constructor
      · rintro (hp | hex)
        · exact Or.inl hp
        · obtain ⟨num, hnum, hlk⟩ := hex
          exact Or.inr ⟨num, List.mem_cons_of_mem _ hnum, hlk⟩
      · rintro (hp | ⟨num, hnum, hlk⟩)
        · exact Or.inl hp
        · rcases List.mem_cons.mp hnum with rfl | hmem
          · rw [hl] at hlk; cases hlk
          · exact Or.inr ⟨num, hmem, hlk⟩
    | some Q =>
      simp only [numStep, hl, mem_insertP]
      constructor
      · rintro ((hp | rfl) | hex)
        · exact Or.inl hp
        · exact Or.inr ⟨n, List.mem_cons_self _ _, hl⟩
        · obtain ⟨num, hnum, hlk⟩ := hex
          exact Or.inr ⟨num, List.mem_cons_of_mem _ hnum, hlk⟩
      · rintro (hp | ⟨num, hnum, hlk⟩)
        · exact Or.inl (Or.inl hp)
        · rcases List.mem_cons.mp hnum with rfl | hmem
          · rw [hl] at hlk
            exact Or.inl (Or.inr (Option.some_inj.mp hlk).symm)
          · exact Or.inr ⟨num, hmem, hlk⟩

theorem numFold_snd (nums : List Nat) (acc : List ParserCls × List String) :
    (nums.foldl numStep acc).2 =
      acc.2 ++ nums.flatMap (fun num =>
        match lookupA (toString num) parser_clses with
        | some _ => []
        | none => ["No parser exists for option +" ++ toString num]) := by
  induction nums generalizing acc with
  | nil => simp
  | cons n ns ih =>
    simp only [List.foldl, List.flatMap_cons]
    rw [ih]
    cases hl : lookupA (toString n) parser_clses with
    | none => simp [numStep, hl]
    | some Q => simp [numStep, hl]

theorem numFold_nodup (nums : List Nat) (acc : List ParserCls × List String)
    (h : acc.1.Nodup) : (nums.foldl numStep acc).1.Nodup := by
  induction nums generalizing acc with
  | nil => exact h
  | cons n ns ih =>
    simp only [List.foldl]
    apply ih
    cases hl : lookupA (toString n) parser_clses with
    | none => simpa [numStep, hl] using h
    | some Q => simpa [numStep, hl] using nodup_insertP Q acc.1 h

theorem dispatchStep_fst_mem (ts : List String) (i : Nat)
    (acc : List ParserCls × List String) (P : ParserCls) :
    P ∈ (dispatchStep ts i acc).1 ↔ P ∈ acc.1 ∨ P ∈ stepParsers ts i := by
  unfold stepParsers dispatchStep
  cases hg : ts.get? i with
  | none => simp
  | some tok =>
    by_cases hd : isDigitTok tok
    · by_cases hp : 0 < i ∧ ts.get? (i - 1) = some "+"
      · simp only [hd, if_true, if_pos hp]
        cases hl : lookupA tok parser_clses with
        | none => simp
        | some Q => simp [mem_insertP]
      · simp only [hd, if_true, if_neg hp]
        rw [mem_numFold, mem_numFold]
        simp
    · simp only [hd]
      cases hl : lookupA tok parser_clses with
      | none =>
        by_cases hplus : tok = "+" <;> simp [hplus]
      | some Q => simp [mem_insertP]

theorem dispatchStep_snd (ts : List String) (i : Nat)
    (acc : List ParserCls × List String) :
    (dispatchStep ts i acc).2 = acc.2 ++ stepDiags ts i := by
  unfold stepDiags dispatchStep
  cases hg : ts.get? i with
  | none => simp
  | some tok =>
    by_cases hd : isDigitTok tok
    · by_cases hp : 0 < i ∧ ts.get? (i - 1) = some "+"
      · simp only [hd, if_true, if_pos hp]
        cases hl : lookupA tok parser_clses with
        | none => simp
        | some Q => simp
      · simp only [hd, if_true, if_neg hp]
        rw [numFold_snd, numFold_snd]
        simp
    · simp only [hd]
      cases hl : lookupA tok parser_clses with
      | none =>
        by_cases hplus : tok = "+" <;> simp [hplus]
      | some Q => simp

theorem dispatchStep_nodup (ts : List String) (i : Nat)
    (acc : List ParserCls × List String) (h : acc.1.Nodup) :
    (dispatchStep ts i acc).1.Nodup := by
  unfold dispatchStep
  cases hg : ts.get? i with
  | none => exact h
  | some tok =>
    by_cases hd : isDigitTok tok
    · by_cases hp : 0 < i ∧ ts.get? (i - 1) = some "+"
      · simp only [hd, if_true, if_pos hp]
        cases hl : lookupA tok parser_clses with
        | none => exact h
        | some Q => exact nodup_insertP Q acc.1 h
      · simp only [hd, if_true, if_neg hp]
        exact numFold_nodup _ _ h
    · simp only [hd]
      cases hl : lookupA tok parser_clses with
      | none => by_cases hplus : tok = "+" <;> simp [hplus, h]
      | some Q => exact nodup_insertP Q acc.1 h

theorem mem_dispatchFold (ts : List String) (is : List Nat)
    (acc : List ParserCls × List String) (P : ParserCls) :
    P ∈ (is.foldl (fun a i => dispatchStep ts i a) acc).1 ↔
      P ∈ acc.1 ∨ ∃ i ∈ is, P ∈ stepParsers ts i := by
  induction is generalizing acc with
  | nil => simp
  | cons j js ih =>
    simp only [List.foldl]
    rw [ih]
    rw [dispatchStep_fst_mem]
    constructor
    · rintro ((hp | hstep) | ⟨i, hi, hmem⟩)
      · exact Or.inl hp
      · exact Or.inr ⟨j, List.mem_cons_self _ _, hstep⟩
      · exact Or.inr ⟨i, List.mem_cons_of_mem _ hi, hmem⟩
    · rintro (hp | ⟨i, hi, hmem⟩)
      · exact Or.inl (Or.inl hp)
      · rcases List.mem_cons.mp hi with rfl | hmem2
        · exact Or.inl (Or.inr hmem)
        · exact Or.inr ⟨i, hmem2, hmem⟩

theorem dispatchFold_snd (ts : List String) (is : List Nat)
    (acc : List ParserCls × List String) :
    (is.foldl (fun a i => dispatchStep ts i a) acc).2 =
      acc.2 ++ is.flatMap (stepDiags ts) := by
  induction is generalizing acc with
  | nil => simp
  | cons j js ih =>
    simp only [List.foldl, List.flatMap_cons]
    rw [ih, dispatchStep_snd]
    simp

theorem dispatchFold_nodup (ts : List String) (is : List Nat)
    (acc : List ParserCls × List String) (h : acc.1.Nodup) :
    (is.foldl (fun a i => dispatchStep ts i a) acc).1.Nodup := by
  induction is generalizing acc with
  | nil => exact h
  | cons j js ih =>
    simp only [List.foldl]
    exact ih _ (dispatchStep_nodup ts j acc h)

theorem mem_dispatchTokens (ts : List String) (P : ParserCls) :
    P ∈ (dispatchTokens ts).1 ↔ ∃ i, i < ts.length ∧ P ∈ stepParsers ts i := by
  unfold dispatchTokens
  rw [mem_dispatchFold]
  simp [List.mem_range]

theorem dispatchTokens_snd (ts : List String) :
    (dispatchTokens ts).2 = (List.range ts.length).flatMap (stepDiags ts) := by
  unfold dispatchTokens
  rw [dispatchFold_snd]
  simp

theorem dispatchTokens_nodup (ts : List String) : (dispatchTokens ts).1.Nodup := by
  unfold dispatchTokens
  exact dispatchFold_nodup _ _ _ List.nodup_nil

theorem stepParsers_bare (ts : List String) (i : Nat) (tok : String)
    (h : ts.get? i = some tok) (hd : isDigitTok tok = true)
    (hplus : ¬(0 < i ∧ ts.get? (i - 1) = some "+")) (P : ParserCls) :
    P ∈ stepParsers ts i ↔
      ∃ L, L ≤ pyToNat tok ∧ lookupA (toString L) parser_clses = some P := by
  unfold stepParsers dispatchStep
  rw [h]
  simp only [hd, if_true, if_neg hplus]
  rw [mem_numFold]
  simp only [List.mem_range'_1]
  constructor
  · rintro (hfalse | ⟨num, ⟨hge, hlt⟩, hlk⟩)
    · simp at hfalse
    · exact ⟨num, by omega, hlk⟩
  · rintro ⟨L, hle, hlk⟩
    have hL := lookupA_toString_clses L
    rw [hlk] at hL
    have h35 : L = 3 ∨ L = 5 := by
      by_cases h3 : L = 3
      · exact Or.inl h3
      · by_cases h5 : L = 5
        · exact Or.inr h5
        · rw [if_neg h3, if_neg h5] at hL; cases hL
    rcases h35 with rfl | rfl
    · exact Or.inr ⟨3, ⟨by omega, by omega⟩, hlk⟩
    · exact Or.inr ⟨5, ⟨by omega, by omega⟩, hlk⟩

theorem stepParsers_plus (ts : List String) (i : Nat) (tok : String)
    (h : ts.get? i = some tok) (hd : isDigitTok tok = true)
    (hplus : 0 < i ∧ ts.get? (i - 1) = some "+") :
    stepParsers ts i = (lookupA tok parser_clses).toList := by
  unfold stepParsers dispatchStep
  rw [h]
  simp only [hd, if_true, if_pos hplus]
  cases hl : lookupA tok parser_clses with
  | none => simp
  | some Q => simp [insertP]

/-! ## Claim theorems: depth decoding, pattern errors, dispatch -/

/-- C5: for every marker token `w`, the decoded call-nesting depth of
`get_rule_depth` equals `len(w)/2` when the length is even (stated
exactly: twice the depth is the length), and `(35 + len(w))/2` with
integer division when the length is odd (the sum is even, so twice the
depth is exactly `35 + len(w)`). -/
theorem c5_rule_depth (w : String) :
    (w.length % 2 = 0 → 2 * get_rule_depth w = w.length) ∧
    (w.length % 2 = 1 → 2 * get_rule_depth w = 35 + w.length) := by
  constructor
  · intro h
    rw [get_rule_depth, if_pos h]
    omega
  · intro h
    rw [get_rule_depth, if_neg (by omega)]
    omega

/-- C5 witness: concrete even-length and odd-length markers. -/
theorem c5_rule_depth_witness :
    2 * get_rule_depth ">>>>" = ">>>>".length ∧
    2 * get_rule_depth ">>>" = 35 + ">>>".length :=
  ⟨(c5_rule_depth ">>>>").1 (by decide), (c5_rule_depth ">>>").2 (by decide)⟩

/-- C4 counterexample: on an *empty* store, an invalid pattern (the
oracle rejects `"["`) raises nothing — both finders return an empty
result, behaving exactly as if the pattern matched no entries,
contradicting the claim for the empty-store case. -/
theorem c4_counterexample :
    Database.find_targets (fun _ => false) (fun _ _ => false) emptyDb "[" =
        Except.ok ([] : List Name) ∧
      Database.find_rules (fun _ => false) (fun _ _ => false) emptyDb "[" =
        Except.ok ([] : List Name) :=
  ⟨rfl, rfl⟩

/-- C4 (amended): for every syntactically invalid pattern,
`find_targets` (resp. `find_rules`) surfaces the `InvalidPattern` error
to the caller whenever the store holds at least one target (resp. rule);
on an empty store the invalid pattern is never examined and the finder
yields no matches and no error. -/
theorem c4_invalid_pattern (valid : String → Bool) (search : String → Name → Bool)
    (db : Database) (pat : String) (hv : valid pat = false) :
    (db.targets ≠ [] →
      db.find_targets valid search pat = Except.error FindError.invalidPattern) ∧
    (db.targets = [] → db.find_targets valid search pat = Except.ok []) ∧
    (db.rules ≠ [] →
      db.find_rules valid search pat = Except.error FindError.invalidPattern) ∧
    (db.rules = [] → db.find_rules valid search pat = Except.ok []) := by
  refine ⟨?_, ?_, ?_, ?_⟩
  · intro hne
    unfold Database.find_targets Database.names
    cases hdb : db.targets with
    | nil => exact absurd hdb hne
    | cons p ps => simp [findAux, hv]
  · intro hnil
    unfold Database.find_targets Database.names
    rw [hnil]
    rfl
  · intro hne
    unfold Database.find_rules
    cases hdb : db.rules with
    | nil => exact absurd hdb hne
    | cons p ps => simp [findAux, hv]
  · intro hnil
    unfold Database.find_rules
    rw [hnil]
    rfl

/-- C4 witness: a store holding one target and one rule surfaces the
error from both finders. -/
theorem c4_invalid_pattern_witness :
    (((emptyDb.get_target "foo").2).declare_rule "r").find_targets
        (fun _ => false) (fun _ _ => false) "[" =
      Except.error FindError.invalidPattern ∧
    (((emptyDb.get_target "foo").2).declare_rule "r").find_rules
        (fun _ => false) (fun _ _ => false) "[" =
      Except.error FindError.invalidPattern := by
  have h := c4_invalid_pattern (fun _ => false) (fun _ _ => false)
    (((emptyDb.get_target "foo").2).declare_rule "r") "[" rfl
  exact ⟨h.1 (by decide), h.2.2.1 (by decide)⟩

/-- C7: a bare digit token (not preceded by `+`) selects exactly the
parsers registered under a numeric level at most its value; a digit
token immediately preceded by `+` selects exactly the parser registered
at that level, if any; the resolved set collects the per-token
selections and holds each parser class at most once regardless of
duplicate tokens. -/
theorem c7_digit_dispatch (ts : List String) (i : Nat) (tok : String)
    (h : ts.get? i = some tok) (hd : isDigitTok tok = true) :
    (¬(0 < i ∧ ts.get? (i - 1) = some "+") →
      ∀ P, P ∈ stepParsers ts i ↔
        ∃ L, L ≤ pyToNat tok ∧ lookupA (toString L) parser_clses = some P) ∧
    ((0 < i ∧ ts.get? (i - 1) = some "+") →
      stepParsers ts i = (lookupA tok parser_clses).toList) ∧
    (∀ P, P ∈ (dispatchTokens ts).1 ↔ ∃ j, j < ts.length ∧ P ∈ stepParsers ts j) ∧
    (dispatchTokens ts).1.Nodup :=
  ⟨fun hn P => stepParsers_bare ts i tok h hd hn P,
   fun hp => stepParsers_plus ts i tok h hd hp,
   fun P => mem_dispatchTokens ts P,
   dispatchTokens_nodup ts⟩

/-- C7 witness: `+ 5` selects exactly the level-5 parser, and the
duplicate-token run `5 5` still resolves to a duplicate-free set. -/
theorem c7_digit_dispatch_witness :
    stepParsers ["+", "5"] 1 = [ParserCls.d5] ∧ (dispatchTokens ["5", "5"]).1.Nodup := by
  constructor
  · have h := c7_digit_dispatch ["+", "5"] 1 "5" rfl (by decide)
    exact (h.2.1 ⟨by decide, rfl⟩).trans (by decide)
  · exact (c7_digit_dispatch ["5", "5"] 0 "5" rfl (by decide)).2.2.2

/-- C8 counterexample: the single-token run `+` leaves the `+` marker
unconsumed, yet dispatch prints no diagnostic at all (the code skips
`+` silently), contradicting the claim that such a token produces a
diagnostic naming it. -/
theorem c8_counterexample : resolveDialects ["+"] = ([], []) := by decide

/-- C8 (amended): an unrecognized token other than `+` produces exactly
one non-fatal diagnostic naming it and selects nothing; the `+` marker
itself is always skipped silently, consumed or not; no token aborts the
run — the run's diagnostics are the concatenation of every token
position's diagnostics. -/
theorem c8_unknown_token (ts : List String) (i : Nat) (tok : String)
    (h : ts.get? i = some tok) (hd : isDigitTok tok = false)
    (hl : lookupA tok parser_clses = none) :
    (tok ≠ "+" →
      stepDiags ts i = ["No parser exists for option " ++ tok] ∧ stepParsers ts i = []) ∧
    (tok = "+" → stepDiags ts i = [] ∧ stepParsers ts i = []) ∧
    (dispatchTokens ts).2 = (List.range ts.length).flatMap (stepDiags ts) := by
  refine ⟨?_, ?_, dispatchTokens_snd ts⟩
  · intro hplus
    unfold stepDiags stepParsers dispatchStep
    rw [h]
    simp [hd, hl, hplus]
  · intro hplus
    subst hplus
    unfold stepDiags stepParsers dispatchStep
    rw [h]
    simp [(by decide : isDigitTok "+" = false),
      (by decide : lookupA "+" parser_clses = none)]

/-- C8 witness: the unknown token `z` yields exactly one diagnostic
naming it. -/
theorem c8_unknown_token_witness :
    stepDiags ["z"] 0 = ["No parser exists for option z"] :=
  (((c8_unknown_token ["z"] 0 "z" rfl (by decide) (by decide)).1) (by decide)).1

/-! ## Claim theorems: the query engine's `deps` -/

theorem flatMap_congr_mem {α β : Type} (l : List α) (f g : α → List β)
    (h : ∀ a ∈ l, f a = g a) : l.flatMap f = l.flatMap g := by
  induction l with
  | nil => rfl
  | cons a as ih =>
    simp only [List.flatMap_cons]
    rw [h a (List.mem_cons_self _ _), ih (fun b hb => h b (List.mem_cons_of_mem _ hb))]

/-- Fuel does not matter once it exceeds the rank of the start target,
for any rank function that strictly decreases along inclusion edges of
stored targets (the shape an acyclic inclusion relation provides). -/
theorem depsFuel_stable (db : Database) (r : Name → Nat)
    (hcl : ∀ a ∈ db.names, ∀ b ∈ (readTarget db a).incs, b ∈ db.names)
    (hr : ∀ a ∈ db.names, ∀ b ∈ (readTarget db a).incs, r b < r a) :
    ∀ n t, t ∈ db.names → r t < n → depsFuel db n t = depsFuel db (n + 1) t := by
  intro n
  induction n with
  | zero => intro t ht h; omega
  | succ m ih =>
    intro t ht hrt
    simp only [depsFuel]
    congr 1
    congr 1
    apply flatMap_congr_mem
    intro i hi
    have hir : r i < r t := hr t ht i hi
    have hin : i ∈ db.names := hcl t ht i hi
    exact ih i hin (by omega)

/-- The test fixture of C1, built through the store's own API:
`y` depends on `d` and includes `q` and `b`; `q` depends on `r`; `b`
depends on `d` and `e`. -/
def mkFix : Database :=
  let d1 := ((emptyDb.get_target "y").2.get_target "d").2.add_dependency "y" "d"
  let d2 := ((d1.get_target "q").2.get_target "r").2.add_dependency "q" "r"
  let d3 := ((d2.get_target "b").2.get_target "d").2.add_dependency "b" "d"
  let d4 := ((d3.get_target "b").2.get_target "e").2.add_dependency "b" "e"
  let d5 := ((d4.get_target "y").2.get_target "q").2.add_inclusion "y" "q"
  ((d5.get_target "y").2.get_target "b").2.add_inclusion "y" "b"

/-- C1: in a store whose inclusion relation is acyclic (witnessed by a
rank function that strictly decreases along inclusion edges and is
bounded by the store size, which any finite acyclic relation admits),
`deps t` equals `t.deps` followed, for each inclusion of `t` in order,
by the recursive `deps`, the concatenation deduplicated keeping first
occurrences; and on the fixture, `deps y = [d, r, e]`. -/
theorem c1_deps (db : Database) (r : Name → Nat)
    (hcl : ∀ a ∈ db.names, ∀ b ∈ (readTarget db a).incs, b ∈ db.names)
    (hr : ∀ a ∈ db.names, ∀ b ∈ (readTarget db a).incs, r b < r a)
    (hb : ∀ a ∈ db.names, r a ≤ db.targets.length)
    (t : Name) (ht : t ∈ db.names) :
    deps db t =
      dedupFirst ((readTarget db t).deps ++ (readTarget db t).incs.flatMap (deps db)) ∧
    deps mkFix "y" = ["d", "r", "e"] := by
  constructor
  · unfold deps
    simp only [depsFuel]
    congr 1
    congr 1
    apply flatMap_congr_mem
    intro i hi
    have hir : r i < r t := hr t ht i hi
    have hin : i ∈ db.names := hcl t ht i hi
    have hrb : r t ≤ db.targets.length := hb t ht
    exact depsFuel_stable db r hcl hr db.targets.length i hin (by omega)
  · decide

/-- C1 witness: the defining equation instantiated at the fixture's `y`
with an explicit rank function. -/
theorem c1_deps_witness :
    deps mkFix "y" =
      dedupFirst ((readTarget mkFix "y").deps ++
        (readTarget mkFix "y").incs.flatMap (deps mkFix)) :=
  (c1_deps mkFix (fun t => if t = "y" then 1 else 0)
    (by decide) (by decide) (by decide) "y" (by decide)).1

/-! ## Store lemmas: `readTarget`, `modifyTarget`, `get_target` -/

theorem lookupA_isSome {β : Type} (k : String) (l : List (String × β)) :
    (lookupA k l).isSome = true ↔ k ∈ l.map Prod.fst := by
  induction l with
  | nil => simp [lookupA]
  | cons p ps ih =>
    by_cases h : p.1 = k
    · simp [lookupA, h]
    · simp only [lookupA, if_neg h, List.map_cons, List.mem_cons]
      rw [ih]
      constructor
      · exact Or.inr
      · rintro (rfl | hm)
        · exact absurd rfl h
        · exact hm

theorem map_fst_mapSame {β : Type} (n : String) (f : β → β) (l : List (String × β)) :
    (l.map (fun p => if p.1 = n then (p.1, f p.2) else p)).map Prod.fst = l.map Prod.fst := by
  induction l with
  | nil => rfl
  | cons p ps ih =>
    by_cases h : p.1 = n <;> simp [h, ih]

theorem names_modifyTarget (db : Database) (n : Name) (f : Target → Target) :
    (modifyTarget db n f).names = db.names := by
  show (mapEntry n f db.targets).map Prod.fst = db.targets.map Prod.fst
  unfold mapEntry
  exact map_fst_mapSame n f db.targets

theorem rules_modifyTarget (db : Database) (n : Name) (f : Target → Target) :
    (modifyTarget db n f).rules = db.rules := rfl

theorem modifyTarget_not_mem (db : Database) (n : Name) (f : Target → Target)
    (h : n ∉ db.names) : modifyTarget db n f = db := by
  unfold modifyTarget mapEntry
  cases db with
  | mk ts rs =>
    simp only [Database.mk.injEq, and_true]
    have : ∀ l : List (Name × Target), n ∉ l.map Prod.fst →
        l.map (fun p => if p.1 = n then (p.1, f p.2) else p) = l := by
      intro l
      induction l with
      | nil => intro _; rfl
      | cons p ps ih =>
        intro hmem
        simp only [List.map_cons, List.mem_cons] at hmem ⊢
        push_neg at hmem
        rw [if_neg (fun hp => hmem.1 hp.symm), ih hmem.2]
    exact this ts h

theorem mem_names_iff (db : Database) (n : Name) :
    n ∈ db.names ↔ (lookupA n db.targets).isSome = true := by
  unfold Database.names
  exact (lookupA_isSome n db.targets).symm

theorem readTarget_modifyTarget_self (db : Database) (n : Name) (f : Target → Target)
    (h : n ∈ db.names) :
    readTarget (modifyTarget db n f) n = f (readTarget db n) := by
  unfold readTarget modifyTarget
  rw [lookupA_mapEntry, if_pos rfl]
  cases hl : lookupA n db.targets with
  | some t => rfl
  | none =>
    rw [mem_names_iff] at h
    rw [hl] at h
    cases h

theorem readTarget_modifyTarget_other (db : Database) (n : Name) (f : Target → Target)
    (m : Name) (h : m ≠ n) :
    readTarget (modifyTarget db n f) m = readTarget db m := by
  unfold readTarget modifyTarget
  rw [lookupA_mapEntry, if_neg h]

theorem get_target_of_mem (db : Database) (n : Name) (h : n ∈ db.names) :
    (db.get_target n).2 = db := by
  unfold Database.get_target
  rw [mem_names_iff] at h
  cases hl : lookupA n db.targets with
  | some t => rfl
  | none => rw [hl] at h; cases h

theorem get_target_of_not_mem (db : Database) (n : Name) (h : n ∉ db.names) :
    (db.get_target n).2 = { db with targets := db.targets ++ [(n, { name := n })] } := by
  unfold Database.get_target
  rw [mem_names_iff] at h
  cases hl : lookupA n db.targets with
  | some t => rw [hl] at h; simp at h
  | none => rfl

theorem readTarget_not_mem (db : Database) (n : Name) (h : n ∉ db.names) :
    readTarget db n = { name := n } := by
  unfold readTarget
  rw [mem_names_iff] at h
  cases hl : lookupA n db.targets with
  | some t => rw [hl] at h; simp at h
  | none => rfl

theorem readTarget_get_target (db : Database) (n m : Name) :
    readTarget ((db.get_target n).2) m = readTarget db m := by
  by_cases h : n ∈ db.names
  · rw [get_target_of_mem db n h]
  · rw [get_target_of_not_mem db n h]
    unfold readTarget
    show ((lookupA m (db.targets ++ [(n, { name := n })])).getD { name := m }) = _
    rw [lookupA_append]
    cases hm : lookupA m db.targets with
    | some t => rfl
    | none =>
      by_cases hnm : n = m
      · subst hnm
        simp [lookupA]
      · simp [lookupA, hnm]

theorem names_get_target_of_mem (db : Database) (n : Name) (h : n ∈ db.names) :
    ((db.get_target n).2).names = db.names := by
  rw [get_target_of_mem db n h]

theorem names_get_target_of_not_mem (db : Database) (n : Name) (h : n ∉ db.names) :
    ((db.get_target n).2).names = db.names ++ [n] := by
  rw [get_target_of_not_mem db n h]
  unfold Database.names
  simp

theorem names_subset_get_target (db : Database) (n m : Name) (h : m ∈ db.names) :
    m ∈ ((db.get_target n).2).names := by
  by_cases hn : n ∈ db.names
  · rw [names_get_target_of_mem db n hn]; exact h
  · rw [names_get_target_of_not_mem db n hn]; exact List.mem_append_left _ h

theorem mem_names_get_target (db : Database) (n : Name) :
    n ∈ ((db.get_target n).2).names := by
  by_cases hn : n ∈ db.names
  · rw [names_get_target_of_mem db n hn]; exact hn
  · rw [names_get_target_of_not_mem db n hn]
    exact List.mem_append_right _ (List.mem_singleton.mpr rfl)

theorem rules_get_target (db : Database) (n : Name) :
    ((db.get_target n).2).rules = db.rules := by
  by_cases hn : n ∈ db.names
  · rw [get_target_of_mem db n hn]
  · rw [get_target_of_not_mem db n hn]

theorem names_add_dependency (db : Database) (a b : Name) :
    (db.add_dependency a b).names = db.names := by
  unfold Database.add_dependency
  by_cases hg : a ∈ (readTarget db b).deps_rev
  · rw [if_pos hg]
  · rw [if_neg hg]
    show (modifyTarget (modifyTarget db a _) b _).names = _
    rw [names_modifyTarget, names_modifyTarget]

theorem names_add_inclusion (db : Database) (a b : Name) :
    (db.add_inclusion a b).names = db.names := by
  unfold Database.add_inclusion
  by_cases hg : a ∈ (readTarget db b).incs_rev
  · rw [if_pos hg]
  · rw [if_neg hg]
    show (modifyTarget (modifyTarget db a _) b _).names = _
    rw [names_modifyTarget, names_modifyTarget]

/-! ## Characterizing the edge mutators -/

theorem mem_insertIfAbsent (x a : Name) (l : List Name) :
    x ∈ insertIfAbsent a l ↔ x = a ∨ x ∈ l := by
  unfold insertIfAbsent
  by_cases h : a ∈ l
  · rw [if_pos h]
    constructor
    · exact Or.inr
    · rintro (rfl | hx)
      · exact h
      · exact hx
  · rw [if_neg h]
    exact List.mem_cons

theorem nodup_insertIfAbsent (a : Name) (l : List Name) (h : l.Nodup) :
    (insertIfAbsent a l).Nodup := by
  unfold insertIfAbsent
  by_cases hm : a ∈ l
  · rwa [if_pos hm]
  · rw [if_neg hm]
    exact List.Nodup.cons hm h

theorem count_insertIfAbsent (a : Name) (l : List Name) (h : l.Nodup) :
    (insertIfAbsent a l).count a = 1 := by
  unfold insertIfAbsent
  by_cases hm : a ∈ l
  · rw [if_pos hm]
    have hle := List.nodup_iff_count_le_one.mp h a
    have hpos := List.count_pos_iff.mpr hm
    omega
  · rw [if_neg hm]
    rw [List.count_cons_self]
    rw [List.count_eq_zero_of_not_mem hm]

theorem readTarget_modifyTarget_cases (db : Database) (n : Name) (f : Target → Target)
    (m : Name) :
    readTarget (modifyTarget db n f) m = readTarget db m ∨
      (m = n ∧ readTarget (modifyTarget db n f) m = f (readTarget db m)) := by
  by_cases hm : m = n
  · subst hm
    by_cases hn : m ∈ db.names
    · exact Or.inr ⟨rfl, readTarget_modifyTarget_self db m f hn⟩
    · rw [modifyTarget_not_mem db m f hn]
      exact Or.inl rfl
  · exact Or.inl (readTarget_modifyTarget_other db n f m hm)

theorem incs_add_dependency (db : Database) (s t m : Name) :
    (readTarget (db.add_dependency s t) m).incs = (readTarget db m).incs := by
  unfold Database.add_dependency
  by_cases hg : s ∈ (readTarget db t).deps_rev
  · rw [if_pos hg]
  · rw [if_neg hg]
    rcases readTarget_modifyTarget_cases
        (modifyTarget db s (fun u => { u with deps := u.deps ++ [t] })) t
        (fun u => { u with deps_rev := insertIfAbsent s u.deps_rev }) m with h2 | ⟨_, h2⟩ <;>
      rcases readTarget_modifyTarget_cases db s
        (fun u => { u with deps := u.deps ++ [t] }) m with h1 | ⟨_, h1⟩ <;>
      simp [h2, h1]

theorem incs_rev_add_dependency (db : Database) (s t m : Name) :
    (readTarget (db.add_dependency s t) m).incs_rev = (readTarget db m).incs_rev := by
  unfold Database.add_dependency
  by_cases hg : s ∈ (readTarget db t).deps_rev
  · rw [if_pos hg]
  · rw [if_neg hg]
    rcases readTarget_modifyTarget_cases
        (modifyTarget db s (fun u => { u with deps := u.deps ++ [t] })) t
        (fun u => { u with deps_rev := insertIfAbsent s u.deps_rev }) m with h2 | ⟨_, h2⟩ <;>
      rcases readTarget_modifyTarget_cases db s
        (fun u => { u with deps := u.deps ++ [t] }) m with h1 | ⟨_, h1⟩ <;>
      simp [h2, h1]

theorem deps_add_inclusion (db : Database) (s t m : Name) :
    (readTarget (db.add_inclusion s t) m).deps = (readTarget db m).deps := by
  unfold Database.add_inclusion
  by_cases hg : s ∈ (readTarget db t).incs_rev
  · rw [if_pos hg]
  · rw [if_neg hg]
    rcases readTarget_modifyTarget_cases
        (modifyTarget db s (fun u => { u with incs := u.incs ++ [t] })) t
        (fun u => { u with incs_rev := insertIfAbsent s u.incs_rev }) m with h2 | ⟨_, h2⟩ <;>
      rcases readTarget_modifyTarget_cases db s
        (fun u => { u with incs := u.incs ++ [t] }) m with h1 | ⟨_, h1⟩ <;>
      simp [h2, h1]

theorem deps_rev_add_inclusion (db : Database) (s t m : Name) :
    (readTarget (db.add_inclusion s t) m).deps_rev = (readTarget db m).deps_rev := by
  unfold Database.add_inclusion
  by_cases hg : s ∈ (readTarget db t).incs_rev
  · rw [if_pos hg]
  · rw [if_neg hg]
    rcases readTarget_modifyTarget_cases
        (modifyTarget db s (fun u => { u with incs := u.incs ++ [t] })) t
        (fun u => { u with incs_rev := insertIfAbsent s u.incs_rev }) m with h2 | ⟨_, h2⟩ <;>
      rcases readTarget_modifyTarget_cases db s
        (fun u => { u with incs := u.incs ++ [t] }) m with h1 | ⟨_, h1⟩ <;>
      simp [h2, h1]

theorem deps_rev_add_dependency (db : Database) (s t B : Name) (ht : t ∈ db.names) :
    (readTarget (db.add_dependency s t) B).deps_rev =
      if t = B then insertIfAbsent s ((readTarget db B).deps_rev)
      else (readTarget db B).deps_rev := by
  unfold Database.add_dependency
  by_cases hg : s ∈ (readTarget db t).deps_rev
  · rw [if_pos hg]
    by_cases htB : t = B
    · subst htB
      rw [if_pos rfl]
      unfold insertIfAbsent
      rw [if_pos hg]
    · rw [if_neg htB]
  · rw [if_neg hg]
    have hrev1 : (readTarget (modifyTarget db s
        (fun u => { u with deps := u.deps ++ [t] })) B).deps_rev =
        (readTarget db B).deps_rev := by
      rcases readTarget_modifyTarget_cases db s
        (fun u => { u with deps := u.deps ++ [t] }) B with h1 | ⟨_, h1⟩ <;> simp [h1]
    by_cases htB : t = B
    · subst htB
      rw [if_pos rfl]
      have htn : t ∈ (modifyTarget db s
          (fun u => { u with deps := u.deps ++ [t] })).names := by
        rw [names_modifyTarget]; exact ht
      rw [readTarget_modifyTarget_self _ t _ htn]
      rw [hrev1]
    · rw [if_neg htB]
      rw [readTarget_modifyTarget_other _ t _ B (fun he => htB he.symm)]
      exact hrev1

theorem deps_add_dependency (db : Database) (s t A : Name)
    (hs : s ∈ db.names)
    (hbil : t ∈ (readTarget db s).deps ↔ s ∈ (readTarget db t).deps_rev) :
    (readTarget (db.add_dependency s t) A).deps =
      if s = A ∧ t ∉ (readTarget db A).deps then (readTarget db A).deps ++ [t]
      else (readTarget db A).deps := by
  unfold Database.add_dependency
  by_cases hg : s ∈ (readTarget db t).deps_rev
  · rw [if_pos hg]
    have hcond : ¬(s = A ∧ t ∉ (readTarget db A).deps) := by
      rintro ⟨rfl, hnt⟩
      exact hnt (hbil.mpr hg)
    rw [if_neg hcond]
  · rw [if_neg hg]
    have hdeps2 : ∀ m, (readTarget (modifyTarget (modifyTarget db s
        (fun u => { u with deps := u.deps ++ [t] })) t
        (fun u => { u with deps_rev := insertIfAbsent s u.deps_rev })) m).deps =
        (readTarget (modifyTarget db s (fun u => { u with deps := u.deps ++ [t] })) m).deps := by
      intro m
      rcases readTarget_modifyTarget_cases
        (modifyTarget db s (fun u => { u with deps := u.deps ++ [t] })) t
        (fun u => { u with deps_rev := insertIfAbsent s u.deps_rev }) m with h2 | ⟨_, h2⟩ <;>
        simp [h2]
    rw [hdeps2 A]
    by_cases hsA : s = A
    · subst hsA
      have hcond : s = s ∧ t ∉ (readTarget db s).deps := by
        refine ⟨rfl, fun ht => hg (hbil.mp ht)⟩
      rw [if_pos hcond]
      rw [readTarget_modifyTarget_self db s _ hs]
    · rw [if_neg (by rintro ⟨rfl, _⟩; exact hsA rfl)]
      rw [readTarget_modifyTarget_other db s _ A (fun he => hsA he.symm)]

theorem incs_rev_add_inclusion (db : Database) (s t B : Name) (ht : t ∈ db.names) :
    (readTarget (db.add_inclusion s t) B).incs_rev =
      if t = B then insertIfAbsent s ((readTarget db B).incs_rev)
      else (readTarget db B).incs_rev := by
  unfold Database.add_inclusion
  by_cases hg : s ∈ (readTarget db t).incs_rev
  · rw [if_pos hg]
    by_cases htB : t = B
    · subst htB
      rw [if_pos rfl]
      unfold insertIfAbsent
      rw [if_pos hg]
    · rw [if_neg htB]
  · rw [if_neg hg]
    have hrev1 : (readTarget (modifyTarget db s
        (fun u => { u with incs := u.incs ++ [t] })) B).incs_rev =
        (readTarget db B).incs_rev := by
      rcases readTarget_modifyTarget_cases db s
        (fun u => { u with incs := u.incs ++ [t] }) B with h1 | ⟨_, h1⟩ <;> simp [h1]
    by_cases htB : t = B
    · subst htB
      rw [if_pos rfl]
      have htn : t ∈ (modifyTarget db s
          (fun u => { u with incs := u.incs ++ [t] })).names := by
        rw [names_modifyTarget]; exact ht
      rw [readTarget_modifyTarget_self _ t _ htn]
      rw [hrev1]
    · rw [if_neg htB]
      rw [readTarget_modifyTarget_other _ t _ B (fun he => htB he.symm)]
      exact hrev1

theorem incs_add_inclusion (db : Database) (s t A : Name)
    (hs : s ∈ db.names)
    (hbil : t ∈ (readTarget db s).incs ↔ s ∈ (readTarget db t).incs_rev) :
    (readTarget (db.add_inclusion s t) A).incs =
      if s = A ∧ t ∉ (readTarget db A).incs then (readTarget db A).incs ++ [t]
      else (readTarget db A).incs := by
  unfold Database.add_inclusion
  by_cases hg : s ∈ (readTarget db t).incs_rev
  · rw [if_pos hg]
    have hcond : ¬(s = A ∧ t ∉ (readTarget db A).incs) := by
      rintro ⟨rfl, hnt⟩
      exact hnt (hbil.mpr hg)
    rw [if_neg hcond]
  · rw [if_neg hg]
    have hincs2 : ∀ m, (readTarget (modifyTarget (modifyTarget db s
        (fun u => { u with incs := u.incs ++ [t] })) t
        (fun u => { u with incs_rev := insertIfAbsent s u.incs_rev })) m).incs =
        (readTarget (modifyTarget db s (fun u => { u with incs := u.incs ++ [t] })) m).incs := by
      intro m
      rcases readTarget_modifyTarget_cases
        (modifyTarget db s (fun u => { u with incs := u.incs ++ [t] })) t
        (fun u => { u with incs_rev := insertIfAbsent s u.incs_rev }) m with h2 | ⟨_, h2⟩ <;>
        simp [h2]
    rw [hincs2 A]
    by_cases hsA : s = A
    · subst hsA
      have hcond : s = s ∧ t ∉ (readTarget db s).incs := by
        refine ⟨rfl, fun ht => hg (hbil.mp ht)⟩
      rw [if_pos hcond]
      rw [readTarget_modifyTarget_self db s _ hs]
    · rw [if_neg (by rintro ⟨rfl, _⟩; exact hsA rfl)]
      rw [readTarget_modifyTarget_other db s _ A (fun he => hsA he.symm)]

/-! ## The store invariant -/

/-- Invariant of every store reachable through the `Database` API:
unique registration per name, all edge endpoints registered, every edge
list duplicate-free, and the forward/reverse edge relations bilaterally
consistent. -/
def Inv (db : Database) : Prop :=
  db.names.Nodup ∧
  (∀ a ∈ db.names,
    (∀ b ∈ (readTarget db a).deps, b ∈ db.names) ∧
    (∀ b ∈ (readTarget db a).deps_rev, b ∈ db.names) ∧
    (∀ b ∈ (readTarget db a).incs, b ∈ db.names) ∧
    (∀ b ∈ (readTarget db a).incs_rev, b ∈ db.names) ∧
    (readTarget db a).deps.Nodup ∧ (readTarget db a).deps_rev.Nodup ∧
    (readTarget db a).incs.Nodup ∧ (readTarget db a).incs_rev.Nodup) ∧
  (∀ a ∈ db.names, ∀ b ∈ db.names,
    (b ∈ (readTarget db a).deps ↔ a ∈ (readTarget db b).deps_rev) ∧
    (b ∈ (readTarget db a).incs ↔ a ∈ (readTarget db b).incs_rev))

instance (db : Database) : Decidable (Inv db) := by
  unfold Inv
  infer_instance

theorem inv_empty : Inv emptyDb := by decide

theorem inv_get_target (db : Database) (n : Name) (h : Inv db) :
    Inv ((db.get_target n).2) := by
  by_cases hn : n ∈ db.names
  · rw [get_target_of_mem db n hn]; exact h
  · obtain ⟨hnd, hfields, hbil⟩ := h
    have hnm := names_get_target_of_not_mem db n hn
    have hrt : ∀ m, readTarget ((db.get_target n).2) m = readTarget db m :=
      fun m => readTarget_get_target db n m
    refine ⟨?_, ?_, ?_⟩
    · rw [hnm]
      refine List.Nodup.append hnd (List.nodup_singleton n) ?_
      intro x hx hmem
      rw [List.mem_singleton] at hmem
      subst hmem
      exact hn hx
    · intro a ha
      rw [hnm] at ha
      rw [hrt a]
      rcases List.mem_append.mp ha with ha | ha
      · obtain ⟨h1, h2, h3, h4, h5, h6, h7, h8⟩ := hfields a ha
        refine ⟨?_, ?_, ?_, ?_, h5, h6, h7, h8⟩ <;> intro b hb <;> rw [hnm]
        · exact List.mem_append_left _ (h1 b hb)
        · exact List.mem_append_left _ (h2 b hb)
        · exact List.mem_append_left _ (h3 b hb)
        · exact List.mem_append_left _ (h4 b hb)
      · rw [List.mem_singleton] at ha
        rw [ha, readTarget_not_mem db n hn, hnm]
        simp
    · intro a ha b hb
      rw [hnm] at ha hb
      rw [hrt a, hrt b]
      rcases List.mem_append.mp ha with ha2 | ha2 <;>
        rcases List.mem_append.mp hb with hb2 | hb2
      · exact hbil a ha2 b hb2
      · rw [List.mem_singleton] at hb2
        rw [hb2, readTarget_not_mem db n hn]
        constructor
        · constructor
          · intro hd
            exact absurd ((hfields a ha2).1 n hd) hn
          · intro hmem
            simp at hmem
        · constructor
          · intro hd
            exact absurd ((hfields a ha2).2.2.1 n hd) hn
          · intro hmem
            simp at hmem
      · rw [List.mem_singleton] at ha2
        rw [ha2, readTarget_not_mem db n hn]
        constructor
        · constructor
          · intro hd
            simp at hd
          · intro hmem
            exact absurd ((hfields b hb2).2.1 n hmem) hn
        · constructor
          · intro hd
            simp at hd
          · intro hmem
            exact absurd ((hfields b hb2).2.2.2.1 n hmem) hn
      · rw [List.mem_singleton] at ha2 hb2
        rw [ha2, hb2, readTarget_not_mem db n hn]
        simp

theorem inv_add_dependency (db : Database) (a b : Name)
    (ha : a ∈ db.names) (hb : b ∈ db.names) (h : Inv db) :
    Inv (db.add_dependency a b) := by
  obtain ⟨hnd, hfields, hbil⟩ := h
  have hone := (hbil a ha b hb).1
  have hdeps := fun A => deps_add_dependency db a b A ha hone
  have hrev := fun B => deps_rev_add_dependency db a b B hb
  have hincs := fun m => incs_add_dependency db a b m
  have hincsrev := fun m => incs_rev_add_dependency db a b m
  have hnames := names_add_dependency db a b
  refine ⟨?_, ?_, ?_⟩
  · rw [hnames]; exact hnd
  · intro x hx
    rw [hnames] at hx
    obtain ⟨h1, h2, h3, h4, h5, h6, h7, h8⟩ := hfields x hx
    rw [hdeps x, hrev x, hincs x, hincsrev x]
    refine ⟨?_, ?_, ?_, ?_, ?_, ?_, h7, h8⟩
    · intro y hy
      rw [hnames]
      by_cases hc : a = x ∧ b ∉ (readTarget db x).deps
      · rw [if_pos hc] at hy
        rcases List.mem_append.mp hy with hy | hy
        · exact h1 y hy
        · rw [List.mem_singleton] at hy
          subst hy
          exact hb
      · rw [if_neg hc] at hy
        exact h1 y hy
    · intro y hy
      rw [hnames]
      by_cases hc : b = x
      · rw [if_pos hc] at hy
        rcases (mem_insertIfAbsent y a _).mp hy with rfl | hy
        · exact ha
        · exact h2 y hy
      · rw [if_neg hc] at hy
        exact h2 y hy
    · intro y hy
      rw [hnames]
      exact h3 y hy
    · intro y hy
      rw [hnames]
      exact h4 y hy
    · by_cases hc : a = x ∧ b ∉ (readTarget db x).deps
      · rw [if_pos hc]
        refine List.Nodup.append h5 (List.nodup_singleton b) ?_
        intro z hz hmem
        rw [List.mem_singleton] at hmem
        subst hmem
        rcases hc with ⟨rfl, hnb⟩
        exact hnb hz
      · rw [if_neg hc]
        exact h5
    · by_cases hc : b = x
      · rw [if_pos hc]
        exact nodup_insertIfAbsent a _ h6
      · rw [if_neg hc]
        exact h6
  · intro x hx y hy
    rw [hnames] at hx hy
    rw [hdeps x, hrev y, hincs x, hincsrev y]
    refine ⟨?_, (hbil x hx y hy).2⟩
    by_cases hc : a = x ∧ b ∉ (readTarget db x).deps
    · rw [if_pos hc]
      obtain ⟨rfl, hnb⟩ := hc
      by_cases hby : b = y
      · subst hby
        rw [if_pos rfl]
        constructor
        · intro _
          exact (mem_insertIfAbsent a a _).mpr (Or.inl rfl)
        · intro _
          exact List.mem_append_right _ (List.mem_singleton.mpr rfl)
      · rw [if_neg hby]
        constructor
        · intro hmem
          rcases List.mem_append.mp hmem with hmem | hmem
          · exact (hbil a hx y hy).1.mp hmem
          · rw [List.mem_singleton] at hmem
            exact absurd hmem.symm hby
        · intro hmem
          exact List.mem_append_left _ ((hbil a hx y hy).1.mpr hmem)
    · rw [if_neg hc]
      by_cases hby : b = y
      · subst hby
        rw [if_pos rfl]
        constructor
        · intro hmem
          exact (mem_insertIfAbsent x a _).mpr (Or.inr ((hbil x hx b hy).1.mp hmem))
        · intro hmem
          rcases (mem_insertIfAbsent x a _).mp hmem with rfl | hmem
          · by_cases hbx : b ∈ (readTarget db x).deps
            · exact hbx
            · exact absurd ⟨rfl, hbx⟩ hc
          · exact (hbil x hx b hy).1.mpr hmem
      · rw [if_neg hby]
        exact (hbil x hx y hy).1

theorem inv_add_inclusion (db : Database) (a b : Name)
    (ha : a ∈ db.names) (hb : b ∈ db.names) (h : Inv db) :
    Inv (db.add_inclusion a b) := by
  obtain ⟨hnd, hfields, hbil⟩ := h
  have hone := (hbil a ha b hb).2
  have hincs := fun A => incs_add_inclusion db a b A ha hone
  have hrev := fun B => incs_rev_add_inclusion db a b B hb
  have hdeps := fun m => deps_add_inclusion db a b m
  have hdepsrev := fun m => deps_rev_add_inclusion db a b m
  have hnames := names_add_inclusion db a b
  refine ⟨?_, ?_, ?_⟩
  · rw [hnames]; exact hnd
  · intro x hx
    rw [hnames] at hx
    obtain ⟨h1, h2, h3, h4, h5, h6, h7, h8⟩ := hfields x hx
    rw [hdeps x, hdepsrev x, hincs x, hrev x]
    refine ⟨?_, ?_, ?_, ?_, h5, h6, ?_, ?_⟩
    · intro y hy
      rw [hnames]
      exact h1 y hy
    · intro y hy
      rw [hnames]
      exact h2 y hy
    · intro y hy
      rw [hnames]
      by_cases hc : a = x ∧ b ∉ (readTarget db x).incs
      · rw [if_pos hc] at hy
        rcases List.mem_append.mp hy with hy | hy
        · exact h3 y hy
        · rw [List.mem_singleton] at hy
          subst hy
          exact hb
      · rw [if_neg hc] at hy
        exact h3 y hy
    · intro y hy
      rw [hnames]
      by_cases hc : b = x
      · rw [if_pos hc] at hy
        rcases (mem_insertIfAbsent y a _).mp hy with rfl | hy
        · exact ha
        · exact h4 y hy
      · rw [if_neg hc] at hy
        exact h4 y hy
    · by_cases hc : a = x ∧ b ∉ (readTarget db x).incs
      · rw [if_pos hc]
        refine List.Nodup.append h7 (List.nodup_singleton b) ?_
        intro z hz hmem
        rw [List.mem_singleton] at hmem
        subst hmem
        rcases hc with ⟨rfl, hnb⟩
        exact hnb hz
      · rw [if_neg hc]
        exact h7
    · by_cases hc : b = x
      · rw [if_pos hc]
        exact nodup_insertIfAbsent a _ h8
      · rw [if_neg hc]
        exact h8
  · intro x hx y hy
    rw [hnames] at hx hy
    rw [hdeps x, hdepsrev y, hincs x, hrev y]
    refine ⟨(hbil x hx y hy).1, ?_⟩
    by_cases hc : a = x ∧ b ∉ (readTarget db x).incs
    · rw [if_pos hc]
      obtain ⟨rfl, hnb⟩ := hc
      by_cases hby : b = y
      · subst hby
        rw [if_pos rfl]
        constructor
        · intro _
          exact (mem_insertIfAbsent a a _).mpr (Or.inl rfl)
        · intro _
          exact List.mem_append_right _ (List.mem_singleton.mpr rfl)
      · rw [if_neg hby]
        constructor
        · intro hmem
          rcases List.mem_append.mp hmem with hmem | hmem
          · exact (hbil a hx y hy).2.mp hmem
          · rw [List.mem_singleton] at hmem
            exact absurd hmem.symm hby
        · intro hmem
          exact List.mem_append_left _ ((hbil a hx y hy).2.mpr hmem)
    · rw [if_neg hc]
      by_cases hby : b = y
      · subst hby
        rw [if_pos rfl]
        constructor
        · intro hmem
          exact (mem_insertIfAbsent x a _).mpr (Or.inr ((hbil x hx b hy).2.mp hmem))
        · intro hmem
          rcases (mem_insertIfAbsent x a _).mp hmem with rfl | hmem
          · by_cases hbx : b ∈ (readTarget db x).incs
            · exact hbx
            · exact absurd ⟨rfl, hbx⟩ hc
          · exact (hbil x hx b hy).2.mpr hmem
      · rw [if_neg hby]
        exact (hbil x hx y hy).2

/-! ## Sequences of API calls -/

/-- One call of the `Database` mutation API.  Dependency and inclusion
edges are recorded the way every caller records them: both endpoint
objects are obtained through `get_target` first. -/
inductive DbOp where
  | getT (n : Name)
  | addDep (a b : Name)
  | addInc (a b : Name)
deriving DecidableEq

def applyOp (db : Database) : DbOp → Database
  | .getT n => (db.get_target n).2
  | .addDep a b => (((db.get_target a).2.get_target b).2).add_dependency a b
  | .addInc a b => (((db.get_target a).2.get_target b).2).add_inclusion a b

/-- Run a sequence of API calls against a fresh store. -/
def runOps (ops : List DbOp) : Database := ops.foldl applyOp emptyDb

theorem inv_applyOp (db : Database) (op : DbOp) (h : Inv db) : Inv (applyOp db op) := by
  cases op with
  | getT n => exact inv_get_target db n h
  | addDep a b =>
    have h1 := inv_get_target db a h
    have h2 := inv_get_target _ b h1
    refine inv_add_dependency _ a b ?_ ?_ h2
    · exact names_subset_get_target _ b a (mem_names_get_target db a)
    · exact mem_names_get_target _ b
  | addInc a b =>
    have h1 := inv_get_target db a h
    have h2 := inv_get_target _ b h1
    refine inv_add_inclusion _ a b ?_ ?_ h2
    · exact names_subset_get_target _ b a (mem_names_get_target db a)
    · exact mem_names_get_target _ b

theorem inv_foldl (ops : List DbOp) (db : Database) (h : Inv db) :
    Inv (ops.foldl applyOp db) := by
  induction ops generalizing db with
  | nil => exact h
  | cons op ops ih => exact ih _ (inv_applyOp db op h)

theorem inv_runOps (ops : List DbOp) : Inv (runOps ops) :=
  inv_foldl ops emptyDb inv_empty

/-- C10: after any sequence of `get_target`/`add_dependency`/
`add_inclusion` calls against one store, the edge relations are
bilaterally consistent for all registered targets, and no target occurs
twice in any `deps` or `incs` list. -/
theorem c10_bilateral_consistency (ops : List DbOp) (A B : Name)
    (hA : A ∈ (runOps ops).names) (hB : B ∈ (runOps ops).names) :
    (B ∈ (readTarget (runOps ops) A).deps ↔ A ∈ (readTarget (runOps ops) B).deps_rev) ∧
    (B ∈ (readTarget (runOps ops) A).incs ↔ A ∈ (readTarget (runOps ops) B).incs_rev) ∧
    (readTarget (runOps ops) A).deps.Nodup ∧ (readTarget (runOps ops) A).incs.Nodup := by
  obtain ⟨hnd, hfields, hbil⟩ := inv_runOps ops
  obtain ⟨hb1, hb2⟩ := hbil A hA B hB
  obtain ⟨_, _, _, _, h5, _, h7, _⟩ := hfields A hA
  exact ⟨hb1, hb2, h5, h7⟩

/-- C10 witness: a tiny concrete run. -/
theorem c10_bilateral_consistency_witness :
    ("b" ∈ (readTarget (runOps [DbOp.addDep "a" "b", DbOp.addInc "a" "c"]) "a").deps ↔
      "a" ∈ (readTarget (runOps [DbOp.addDep "a" "b", DbOp.addInc "a" "c"]) "b").deps_rev) ∧
    ("b" ∈ (readTarget (runOps [DbOp.addDep "a" "b", DbOp.addInc "a" "c"]) "a").incs ↔
      "a" ∈ (readTarget (runOps [DbOp.addDep "a" "b", DbOp.addInc "a" "c"]) "b").incs_rev) ∧
    (readTarget (runOps [DbOp.addDep "a" "b", DbOp.addInc "a" "c"]) "a").deps.Nodup ∧
    (readTarget (runOps [DbOp.addDep "a" "b", DbOp.addInc "a" "c"]) "a").incs.Nodup :=
  c10_bilateral_consistency [DbOp.addDep "a" "b", DbOp.addInc "a" "c"] "a" "b"
    (by decide) (by decide)

/-! ## C3: idempotence and first-added order -/

/-- The distinct new dependencies of `A` contributed by an edge
sequence, in first-added order, relative to the already-recorded list
`old`. -/
def newFirsts (A : Name) (old : List Name) : List (Name × Name) → List Name
  | [] => []
  | e :: es =>
    if e.1 = A ∧ e.2 ∉ old then e.2 :: newFirsts A (old ++ [e.2]) es
    else newFirsts A old es

def runDepAdds (db : Database) (es : List (Name × Name)) : Database :=
  es.foldl (fun d e => applyOp d (.addDep e.1 e.2)) db

def runIncAdds (db : Database) (es : List (Name × Name)) : Database :=
  es.foldl (fun d e => applyOp d (.addInc e.1 e.2)) db

theorem deps_applyOp_addDep (db : Database) (s t A : Name) (h : Inv db) :
    (readTarget (applyOp db (.addDep s t)) A).deps =
      if s = A ∧ t ∉ (readTarget db A).deps then (readTarget db A).deps ++ [t]
      else (readTarget db A).deps := by
  have hdb2 : ∀ m, readTarget ((db.get_target s).2.get_target t).2 m = readTarget db m := by
    intro m
    rw [readTarget_get_target, readTarget_get_target]
  have hinv2 : Inv ((db.get_target s).2.get_target t).2 :=
    inv_get_target _ t (inv_get_target db s h)
  have hs2 : s ∈ (((db.get_target s).2.get_target t).2).names :=
    names_subset_get_target _ t s (mem_names_get_target db s)
  have ht2 : t ∈ (((db.get_target s).2.get_target t).2).names :=
    mem_names_get_target _ t
  obtain ⟨_, _, hbil⟩ := hinv2
  have hone := (hbil s hs2 t ht2).1
  show (readTarget ((((db.get_target s).2.get_target t).2).add_dependency s t) A).deps = _
  rw [deps_add_dependency _ s t A hs2 hone]
  rw [hdb2 A]

theorem deps_rev_applyOp_addDep (db : Database) (s t B : Name) :
    (readTarget (applyOp db (.addDep s t)) B).deps_rev =
      if t = B then insertIfAbsent s ((readTarget db B).deps_rev)
      else (readTarget db B).deps_rev := by
  have hdb2 : ∀ m, readTarget ((db.get_target s).2.get_target t).2 m = readTarget db m := by
    intro m
    rw [readTarget_get_target, readTarget_get_target]
  have ht2 : t ∈ (((db.get_target s).2.get_target t).2).names :=
    mem_names_get_target _ t
  show (readTarget ((((db.get_target s).2.get_target t).2).add_dependency s t) B).deps_rev = _
  rw [deps_rev_add_dependency _ s t B ht2]
  rw [hdb2 B]

theorem incs_applyOp_addInc (db : Database) (s t A : Name) (h : Inv db) :
    (readTarget (applyOp db (.addInc s t)) A).incs =
      if s = A ∧ t ∉ (readTarget db A).incs then (readTarget db A).incs ++ [t]
      else (readTarget db A).incs := by
  have hdb2 : ∀ m, readTarget ((db.get_target s).2.get_target t).2 m = readTarget db m := by
    intro m
    rw [readTarget_get_target, readTarget_get_target]
  have hinv2 : Inv ((db.get_target s).2.get_target t).2 :=
    inv_get_target _ t (inv_get_target db s h)
  have hs2 : s ∈ (((db.get_target s).2.get_target t).2).names :=
    names_subset_get_target _ t s (mem_names_get_target db s)
  have ht2 : t ∈ (((db.get_target s).2.get_target t).2).names :=
    mem_names_get_target _ t
  obtain ⟨_, _, hbil⟩ := hinv2
  have hone := (hbil s hs2 t ht2).2
  show (readTarget ((((db.get_target s).2.get_target t).2).add_inclusion s t) A).incs = _
  rw [incs_add_inclusion _ s t A hs2 hone]
  rw [hdb2 A]

theorem incs_rev_applyOp_addInc (db : Database) (s t B : Name) :
    (readTarget (applyOp db (.addInc s t)) B).incs_rev =
      if t = B then insertIfAbsent s ((readTarget db B).incs_rev)
      else (readTarget db B).incs_rev := by
  have hdb2 : ∀ m, readTarget ((db.get_target s).2.get_target t).2 m = readTarget db m := by
    intro m
    rw [readTarget_get_target, readTarget_get_target]
  have ht2 : t ∈ (((db.get_target s).2.get_target t).2).names :=
    mem_names_get_target _ t
  show (readTarget ((((db.get_target s).2.get_target t).2).add_inclusion s t) B).incs_rev = _
  rw [incs_rev_add_inclusion _ s t B ht2]
  rw [hdb2 B]

theorem deps_runDepAdds (es : List (Name × Name)) (db : Database) (h : Inv db) (A : Name) :
    (readTarget (runDepAdds db es) A).deps =
      (readTarget db A).deps ++ newFirsts A ((readTarget db A).deps) es := by
  induction es generalizing db with
  | nil => simp [runDepAdds, newFirsts]
  | cons e es ih =>
    have hstep := deps_applyOp_addDep db e.1 e.2 A h
    have hinv2 := inv_applyOp db (.addDep e.1 e.2) h
    show (readTarget (runDepAdds (applyOp db (.addDep e.1 e.2)) es) A).deps = _
    rw [ih _ hinv2, hstep]
    by_cases hc : e.1 = A ∧ e.2 ∉ (readTarget db A).deps
    · rw [if_pos hc]
      show _ = _ ++ newFirsts A _ (e :: es)
      rw [newFirsts, if_pos hc]
      rw [List.append_assoc]
      rfl
    · rw [if_neg hc]
      show _ = _ ++ newFirsts A _ (e :: es)
      rw [newFirsts, if_neg hc]

theorem incs_runIncAdds (es : List (Name × Name)) (db : Database) (h : Inv db) (A : Name) :
    (readTarget (runIncAdds db es) A).incs =
      (readTarget db A).incs ++ newFirsts A ((readTarget db A).incs) es := by
  induction es generalizing db with
  | nil => simp [runIncAdds, newFirsts]
  | cons e es ih =>
    have hstep := incs_applyOp_addInc db e.1 e.2 A h
    have hinv2 := inv_applyOp db (.addInc e.1 e.2) h
    show (readTarget (runIncAdds (applyOp db (.addInc e.1 e.2)) es) A).incs = _
    rw [ih _ hinv2, hstep]
    by_cases hc : e.1 = A ∧ e.2 ∉ (readTarget db A).incs
    · rw [if_pos hc]
      show _ = _ ++ newFirsts A _ (e :: es)
      rw [newFirsts, if_pos hc]
      rw [List.append_assoc]
      rfl
    · rw [if_neg hc]
      show _ = _ ++ newFirsts A _ (e :: es)
      rw [newFirsts, if_neg hc]

theorem insertIfAbsent_mem (a : Name) (l : List Name) (h : a ∈ l) :
    insertIfAbsent a l = l := by
  unfold insertIfAbsent
  rw [if_pos h]

theorem count_of_nodup_mem (a : Name) (l : List Name) (hnd : l.Nodup) (hm : a ∈ l) :
    l.count a = 1 := by
  have hle := List.nodup_iff_count_le_one.mp hnd a
  have hpos := List.count_pos_iff.mpr hm
  omega

/-- C3: on a store satisfying the API invariant, recording the same
dependency (or inclusion) edge twice leaves the forward entry in `deps`
(`incs`) exactly once and the reverse entry in `deps_rev` (`incs_rev`)
exactly once; and after any sequence of edge recordings, `A.deps`
(`A.incs`) is its old content followed by the distinct new edges from
`A` in the order they were first added. -/
theorem c3_idempotent_ordered (db : Database) (h : Inv db) (A B : Name)
    (hA : A ∈ db.names) (hB : B ∈ db.names) :
    ((readTarget ((db.add_dependency A B).add_dependency A B) A).deps.count B = 1 ∧
     (readTarget ((db.add_dependency A B).add_dependency A B) B).deps_rev.count A = 1) ∧
    ((readTarget ((db.add_inclusion A B).add_inclusion A B) A).incs.count B = 1 ∧
     (readTarget ((db.add_inclusion A B).add_inclusion A B) B).incs_rev.count A = 1) ∧
    (∀ es, (readTarget (runDepAdds db es) A).deps =
        (readTarget db A).deps ++ newFirsts A ((readTarget db A).deps) es) ∧
    (∀ es, (readTarget (runIncAdds db es) A).incs =
        (readTarget db A).incs ++ newFirsts A ((readTarget db A).incs) es) := by
  obtain ⟨hnd, hfields, hbil⟩ := h
  have hInv : Inv db := ⟨hnd, hfields, hbil⟩
  have hd1Inv : Inv (db.add_dependency A B) := inv_add_dependency db A B hA hB hInv
  have hi1Inv : Inv (db.add_inclusion A B) := inv_add_inclusion db A B hA hB hInv
  have hA1d : A ∈ (db.add_dependency A B).names := by
    rw [names_add_dependency]; exact hA
  have hB1d : B ∈ (db.add_dependency A B).names := by
    rw [names_add_dependency]; exact hB
  have hA1i : A ∈ (db.add_inclusion A B).names := by
    rw [names_add_inclusion]; exact hA
  have hB1i : B ∈ (db.add_inclusion A B).names := by
    rw [names_add_inclusion]; exact hB
  refine ⟨⟨?_, ?_⟩, ⟨?_, ?_⟩, ?_, ?_⟩
  · -- deps count after double add
    have h1 := deps_add_dependency db A B A hA (hbil A hA B hB).1
    have h2 := deps_add_dependency (db.add_dependency A B) A B A hA1d
      (hd1Inv.2.2 A hA1d B hB1d).1
    by_cases hmem : B ∈ (readTarget db A).deps
    · have hc1 : ¬(A = A ∧ B ∉ (readTarget db A).deps) := by
        rintro ⟨_, hc⟩; exact hc hmem
      rw [if_neg hc1] at h1
      rw [h1, if_neg hc1] at h2
      rw [h2]
      exact count_of_nodup_mem B _ (hfields A hA).2.2.2.2.1 hmem
    · rw [if_pos ⟨rfl, hmem⟩] at h1
      rw [h1] at h2
      have hc2 : ¬(A = A ∧ B ∉ (readTarget db A).deps ++ [B]) := by
        rintro ⟨_, hc⟩
        exact hc (List.mem_append_right _ (List.mem_singleton.mpr rfl))
      rw [if_neg hc2] at h2
      rw [h2, List.count_append, List.count_eq_zero_of_not_mem hmem]
      simp
  · -- deps_rev count after double add
    have h1 := deps_rev_add_dependency db A B B hB
    have h2 := deps_rev_add_dependency (db.add_dependency A B) A B B hB1d
    rw [h2, if_pos rfl, h1, if_pos rfl]
    have hmem : A ∈ insertIfAbsent A ((readTarget db B).deps_rev) :=
      (mem_insertIfAbsent A A _).mpr (Or.inl rfl)
    rw [insertIfAbsent_mem A _ hmem]
    exact count_of_nodup_mem A _
      (nodup_insertIfAbsent A _ (hfields B hB).2.2.2.2.2.1) hmem
  · -- incs count after double add
    have h1 := incs_add_inclusion db A B A hA (hbil A hA B hB).2
    have h2 := incs_add_inclusion (db.add_inclusion A B) A B A hA1i
      (hi1Inv.2.2 A hA1i B hB1i).2
    by_cases hmem : B ∈ (readTarget db A).incs
    · have hc1 : ¬(A = A ∧ B ∉ (readTarget db A).incs) := by
        rintro ⟨_, hc⟩; exact hc hmem
      rw [if_neg hc1] at h1
      rw [h1, if_neg hc1] at h2
      rw [h2]
      exact count_of_nodup_mem B _ (hfields A hA).2.2.2.2.2.2.1 hmem
    · rw [if_pos ⟨rfl, hmem⟩] at h1
      rw [h1] at h2
      have hc2 : ¬(A = A ∧ B ∉ (readTarget db A).incs ++ [B]) := by
        rintro ⟨_, hc⟩
        exact hc (List.mem_append_right _ (List.mem_singleton.mpr rfl))
      rw [if_neg hc2] at h2
      rw [h2, List.count_append, List.count_eq_zero_of_not_mem hmem]
      simp
  · -- incs_rev count after double add
    have h1 := incs_rev_add_inclusion db A B B hB
    have h2 := incs_rev_add_inclusion (db.add_inclusion A B) A B B hB1i
    rw [h2, if_pos rfl, h1, if_pos rfl]
    have hmem : A ∈ insertIfAbsent A ((readTarget db B).incs_rev) :=
      (mem_insertIfAbsent A A _).mpr (Or.inl rfl)
    rw [insertIfAbsent_mem A _ hmem]
    exact count_of_nodup_mem A _
      (nodup_insertIfAbsent A _ (hfields B hB).2.2.2.2.2.2.2) hmem
  · exact fun es => deps_runDepAdds es db hInv A
  · exact fun es => incs_runIncAdds es db hInv A

/-- C3 witness: a two-target store, the double add, and a concrete edge
sequence whose duplicate collapses while order is preserved. -/
theorem c3_idempotent_ordered_witness :
    (readTarget (((runOps [DbOp.getT "a", DbOp.getT "b"]).add_dependency "a" "b").add_dependency
        "a" "b") "a").deps.count "b" = 1 ∧
    (readTarget (runDepAdds (runOps [DbOp.getT "a", DbOp.getT "b"])
        [("a", "b"), ("a", "c"), ("a", "b")]) "a").deps =
      (readTarget (runOps [DbOp.getT "a", DbOp.getT "b"]) "a").deps ++
        newFirsts "a" ((readTarget (runOps [DbOp.getT "a", DbOp.getT "b"]) "a").deps)
          [("a", "b"), ("a", "c"), ("a", "b")] := by
  have h := c3_idempotent_ordered (runOps [DbOp.getT "a", DbOp.getT "b"]) (by decide)
    "a" "b" (by decide) (by decide)
  exact ⟨h.1.1, h.2.2.1 [("a", "b"), ("a", "c"), ("a", "b")]⟩

/-! ## Rule-call heap lemmas -/

theorem argStep_rules (cid : CallId) (acc : ArgAcc) (e : String) :
    (argStep cid acc e).db.rules = acc.db.rules := by
  unfold argStep
  by_cases he : e = ":"
  · rw [if_pos he]
  · rw [if_neg he]
    show (modifyTarget ((acc.db.get_target e).2) e _).rules = _
    rw [rules_modifyTarget, rules_get_target]

theorem argFold_rules (cid : CallId) (l : List String) (acc : ArgAcc) :
    (l.foldl (argStep cid) acc).db.rules = acc.db.rules := by
  induction l generalizing acc with
  | nil => rfl
  | cons e es ih =>
    show ((es.foldl (argStep cid) (argStep cid acc e))).db.rules = _
    rw [ih, argStep_rules]

theorem add_call_fst (db : Database) (rn : Name) (args : List String) (r : Rule)
    (hr : lookupA rn db.rules = some r) :
    (db.add_call rn args).1 = (rn, r.calls.length) := by
  unfold Database.add_call
  rw [hr]

theorem readCall_add_call_fresh (db : Database) (rn : Name) (args : List String) (r : Rule)
    (hr : lookupA rn db.rules = some r) :
    ∃ c : RuleCall,
      readCall (db.add_call rn args).2 (rn, r.calls.length) = some c ∧
      c.caller = none ∧ c.sub_calls = [] ∧ c.rule = rn := by
  refine ⟨{ rule := rn, caller := none, sub_calls := [],
            args := (args.foldl (argStep (rn, r.calls.length)) ⟨0, [[]], db⟩).args,
            id_number := r.calls.length }, ?_, rfl, rfl, rfl⟩
  simp only [Database.add_call, hr, readCall, lookupA_mapEntry, argFold_rules]
  simp [List.getElem?_concat_length]

theorem readCall_add_call_other (db : Database) (rn : Name) (args : List String) (r : Rule)
    (hr : lookupA rn db.rules = some r) (m : CallId)
    (hm : m.1 ≠ rn ∨ m.2 < r.calls.length) :
    readCall (db.add_call rn args).2 m = readCall db m := by
  simp only [Database.add_call, hr, readCall, lookupA_mapEntry, argFold_rules]
  by_cases h1 : m.1 = rn
  · rw [if_pos h1, h1, hr]
    rcases hm with hm | hm
    · exact absurd h1 hm
    · simp [List.getElem?_append_left hm]
  · rw [if_neg h1]

theorem readCall_modifyCall (db : Database) (cid : CallId) (f : RuleCall → RuleCall)
    (m : CallId) :
    readCall (modifyCall db cid f) m =
      if m = cid then (readCall db m).map f else readCall db m := by
  simp only [readCall, modifyCall, lookupA_mapEntry]
  by_cases h1 : m.1 = cid.1
  · rw [if_pos h1]
    cases hl : lookupA m.1 db.rules with
    | none =>
      have hne : ¬(m = cid) ∨ True := Or.inr trivial
      by_cases hmc : m = cid <;> simp [hmc]
    | some rl =>
      by_cases h2 : m.2 = cid.2
      · have hmc : m = cid := Prod.ext_iff.mpr ⟨h1, h2⟩
        rw [if_pos hmc]
        simp [listModify_getElem, h2]
      · have hmc : ¬(m = cid) := fun hc => h2 (congrArg Prod.snd hc)
        rw [if_neg hmc]
        simp [listModify_getElem, h2]
  · have hmc : ¬(m = cid) := fun hc => h1 (congrArg Prod.fst hc)
    rw [if_neg h1, if_neg hmc]

theorem set_caller_fresh (db : Database) (cid prev : CallId) (c : RuleCall)
    (hread : readCall db cid = some c) (hc : c.caller = none) :
    db.set_caller cid prev =
      Except.ok (modifyCall db cid (fun k => { k with caller := some prev })) := by
  simp [Database.set_caller, hread, hc]

/-! ## Frame-stack lemmas and the unreachability of the caller assertion -/

theorem modifyLast_append_singleton {α : Type} (f : α → α) (l : List α) (a : α) :
    modifyLast f (l ++ [a]) = l ++ [f a] := by
  induction l with
  | nil => rfl
  | cons x xs ih =>
    cases xs with
    | nil => rfl
    | cons z zs =>
      show x :: modifyLast f ((z :: zs) ++ [a]) = x :: ((z :: zs) ++ [f a])
      rw [ih]

theorem penult_append_singleton {α : Type} (l : List α) (a : α) (h : l ≠ []) :
    penult (l ++ [a]) = l.get? (l.length - 1) := by
  unfold penult
  have hlen : 1 ≤ l.length := List.length_pos.mpr h
  rw [List.length_append, List.length_singleton]
  rw [if_pos (by omega)]
  have hidx : l.length + 1 - 2 = l.length - 1 := by omega
  rw [hidx]
  exact List.get?_append (by omega)

theorem linkPrev_ok (db₁ : Database) (cid : CallId) (oc : Option CallId)
    (c : RuleCall) (hread : readCall db₁ cid = some c) (hc : c.caller = none) :
    ∃ db₂, linkPrev db₁ cid oc = Except.ok db₂ := by
  cases oc with
  | none => exact ⟨db₁, rfl⟩
  | some prev =>
    simp only [linkPrev]
    rw [set_caller_fresh db₁ cid prev c hread hc]
    exact ⟨_, rfl⟩

theorem linkFrame_ok (db₁ : Database) (cid : CallId) (fr : Option Frame)
    (c : RuleCall) (hread : readCall db₁ cid = some c) (hc : c.caller = none) :
    ∃ db₂, linkFrame db₁ cid fr = Except.ok db₂ := by
  cases fr with
  | none => exact ⟨db₁, rfl⟩
  | some f2 =>
    simp only [linkFrame]
    exact linkPrev_ok db₁ cid f2.rule_call c hread hc

theorem parse_call_aux_ok (st : D5State) (cid : CallId) (db₁ : Database)
    (c : RuleCall) (hread : readCall db₁ cid = some c) (hc : c.caller = none) :
    ∃ st2, parse_call_aux st cid db₁ = Except.ok st2 := by
  unfold parse_call_aux
  obtain ⟨db₂, h2⟩ := linkFrame_ok db₁ cid
    (penult (modifyLast (fun f => { f with rule_call := some cid }) st.rule_stack)) c hread hc
  rw [h2]
  exact ⟨_, rfl⟩

theorem parse_call_line_ok (st : D5State) (ws : List String) :
    ∃ r, parse_call_line st ws = Except.ok r := by
  unfold parse_call_line
  cases hrule : st.db.get_rule ((ws.get? 1).getD "") with
  | none => exact ⟨none, rfl⟩
  | some r =>
    have hr : lookupA ((ws.get? 1).getD "") st.db.rules = some r := hrule
    obtain ⟨c, hread, hc, _, _⟩ :=
      readCall_add_call_fresh st.db ((ws.get? 1).getD "") (ws.drop 2) r hr
    have hfst := add_call_fst st.db ((ws.get? 1).getD "") (ws.drop 2) r hr
    rw [← hfst] at hread
    obtain ⟨st2, hst2⟩ := parse_call_aux_ok st
      (st.db.add_call ((ws.get? 1).getD "") (ws.drop 2)).1
      (st.db.add_call ((ws.get? 1).getD "") (ws.drop 2)).2 c hread hc
    rw [hst2]
    exact ⟨some st2, rfl⟩

theorem parse_line_classify_ok (st₁ : D5State) (ws : List String) :
    ∃ st2, parse_line_classify st₁ ws = Except.ok st2 := by
  unfold parse_line_classify
  cases hd : parse_decl_line st₁.db ws with
  | some db2 => exact ⟨_, rfl⟩
  | none =>
    cases hs : parse_set_line st₁.db ws with
    | some db2 => exact ⟨_, rfl⟩
    | none =>
      cases hdep : parse_dep_line st₁.db ws with
      | some db2 => exact ⟨_, rfl⟩
      | none =>
        cases hinc : parse_inc_line st₁.db ws with
        | some db2 => exact ⟨_, rfl⟩
        | none =>
          obtain ⟨r, hcall⟩ := parse_call_line_ok st₁ ws
          rw [hcall]
          cases r with
          | none => exact ⟨_, rfl⟩
          | some st2 => exact ⟨st2, rfl⟩

theorem parse_line_ok (st : D5State) (line : String) :
    ∃ st2, parse_line st line = Except.ok st2 := by
  unfold parse_line parse_line_words
  by_cases h1 : (pySplit line).length < 2
  · rw [if_pos h1]; exact ⟨st, rfl⟩
  · rw [if_neg h1]
    by_cases h2 : ¬pyStartsWith (((pySplit line).get? 0).getD "") ">"
    · rw [if_pos h2]; exact ⟨st, rfl⟩
    · rw [if_neg h2]
      exact parse_line_classify_ok _ _

/-- C9: the fatal assertion inside `RuleCall.set_caller` (the
`MalformedCallerAssignment` condition) is unreachable from
`parse_logfile`: `set_caller` is only ever applied to the call the
parser has just constructed, whose `caller` is still `None`, so parsing
any sequence of lines from any store succeeds. -/
theorem c9_set_caller_assertion_unreachable (db : Database) (lines : List String) :
    ∃ db2, parse_logfile db lines = Except.ok db2 := by
  unfold parse_logfile
  have hfold : ∀ (ls : List String) (st : D5State),
      ∃ st2, List.foldlM parse_line st ls = Except.ok st2 := by
    intro ls
    induction ls with
    | nil => exact fun st => ⟨st, rfl⟩
    | cons l ls ih =>
      intro st
      obtain ⟨st1, h1⟩ := parse_line_ok st l
      obtain ⟨st2, h2⟩ := ih st1
      refine ⟨st2, ?_⟩
      rw [List.foldlM_cons, h1]
      exact h2
  obtain ⟨st2, h2⟩ := hfold lines ⟨db, [{}]⟩
  rw [h2]
  exact ⟨st2.db, rfl⟩

theorem parse_line_classify_call (st₁ : D5State) (ws : List String)
    (hnd : parse_decl_line st₁.db ws = none) (hns : parse_set_line st₁.db ws = none)
    (hndp : parse_dep_line st₁.db ws = none) (hni : parse_inc_line st₁.db ws = none) :
    parse_line_classify st₁ ws =
      match parse_call_line st₁ ws with
      | .error e => .error e
      | .ok (some st₂) => .ok st₂
      | .ok none => .ok st₁ := by
  unfold parse_line_classify
  rw [hnd, hns, hndp, hni]

theorem parse_call_line_eq (st₁ : D5State) (ws : List String) (r : Rule)
    (hr : st₁.db.get_rule ((ws.get? 1).getD "") = some r) :
    parse_call_line st₁ ws =
      (parse_call_aux st₁ (st₁.db.add_call ((ws.get? 1).getD "") (ws.drop 2)).1
        (st₁.db.add_call ((ws.get? 1).getD "") (ws.drop 2)).2).map some := by
  unfold parse_call_line
  rw [hr]

theorem parse_call_aux_spec (st₁ : D5State) (cid : CallId) (db₁ : Database)
    (l : List Frame) (a : Frame)
    (hstack : st₁.rule_stack = l ++ [a]) (hl : l ≠ [])
    (f2 : Frame) (hf2 : l.get? (l.length - 1) = some f2)
    (prev : CallId) (hprev : f2.rule_call = some prev)
    (c : RuleCall) (hread : readCall db₁ cid = some c) (hc : c.caller = none) :
    parse_call_aux st₁ cid db₁ =
      Except.ok ⟨(modifyCall db₁ cid (fun k => { k with caller := some prev })).add_sub_call
          prev cid,
        l ++ [{ a with rule_call := some cid }]⟩ := by
  unfold parse_call_aux
  rw [hstack, modifyLast_append_singleton]
  rw [penult_append_singleton l _ hl, hf2]
  simp only [linkFrame, hprev, linkPrev]
  rw [set_caller_fresh db₁ cid prev c hread hc]

/-- C2: on a qualifying line at decoded depth 2 whose second word names
an already-declared rule R, while the frame at depth 1 carries a call of
rule S, the freshly constructed RuleCall of R gets that S call as its
`caller`, is appended to the S call's `sub_calls`, and is recorded on
the new innermost frame (stack index 2 of the three-frame stack) so
deeper calls find it as their caller. -/
theorem c2_nested_call_linking (st : D5State) (line w0 R : String) (rest : List String)
    (hw : pySplit line = w0 :: R :: rest)
    (h0 : pyStartsWith w0 ">" = true)
    (hdepth : get_rule_depth w0 = 2)
    (hstack : 2 ≤ st.rule_stack.length)
    (f1 : Frame) (hf1 : st.rule_stack.get? 1 = some f1)
    (cS : CallId) (hcS : f1.rule_call = some cS)
    (callS : RuleCall) (hread : readCall st.db cS = some callS)
    (S : Name) (hS : callS.rule = S)
    (rR : Rule) (hR : lookupA R st.db.rules = some rR)
    (hnd : parse_decl_line st.db (w0 :: R :: rest) = none)
    (hns : parse_set_line st.db (w0 :: R :: rest) = none)
    (hndp : parse_dep_line st.db (w0 :: R :: rest) = none)
    (hni : parse_inc_line st.db (w0 :: R :: rest) = none) :
    ∃ st2, parse_line st line = Except.ok st2 ∧
      (readCall st2.db (R, rR.calls.length)).map RuleCall.caller = some (some cS) ∧
      (readCall st2.db cS).map RuleCall.sub_calls =
        some (callS.sub_calls ++ [(R, rR.calls.length)]) ∧
      st2.rule_stack.length = 3 ∧
      (st2.rule_stack.get? 2).map Frame.rule_call = some (some (R, rR.calls.length)) := by
  have hws1 : (((w0 :: R :: rest) : List String).get? 1).getD "" = R := rfl
  have hdrop : ((w0 :: R :: rest) : List String).drop 2 = rest := rfl
  have hfst : (st.db.add_call R rest).1 = (R, rR.calls.length) :=
    add_call_fst st.db R rest rR hR
  obtain ⟨c, hreadc, hcNone, hcSub, hcRule⟩ :=
    readCall_add_call_fresh st.db R rest rR hR
  -- the existing call of S is distinct from the fresh call id
  have hdis : cS.1 ≠ R ∨ cS.2 < rR.calls.length := by
    by_cases h1 : cS.1 = R
    · right
      unfold readCall at hread
      rw [h1, hR] at hread
      simp only [Option.some_bind] at hread
      by_contra hge
      push_neg at hge
      rw [List.get?_eq_none.mpr hge] at hread
      cases hread
    · left; exact h1
  have hneq : cS ≠ (R, rR.calls.length) := by
    rcases hdis with hd | hd
    · exact fun he => hd (congrArg Prod.fst he)
    · intro he
      rw [he] at hd
      omega
  have hneq2 : ((R, rR.calls.length) : CallId) ≠ cS := fun he => hneq he.symm
  -- the trimmed stack
  have hllen : (st.rule_stack.take 2).length = 2 := by
    rw [List.length_take]
    omega
  have hlne : st.rule_stack.take 2 ≠ [] := by
    intro he
    rw [he] at hllen
    cases hllen
  have hf2 : (st.rule_stack.take 2).get? ((st.rule_stack.take 2).length - 1) = some f1 := by
    rw [hllen]
    show (st.rule_stack.take 2).get? 1 = some f1
    rw [List.get?_take (by omega)]
    exact hf1
  -- the classifier cascade reaches the call classifier
  have hlen2 : ¬((w0 :: R :: rest).length < 2) := by
    simp only [List.length_cons]
    omega
  have hsw : pyStartsWith (((w0 :: R :: rest).get? 0).getD "") ">" = true := h0
  have hdepth2 : get_rule_depth (((w0 :: R :: rest).get? 0).getD "") = 2 := hdepth
  have hline1 : parse_line st line =
      parse_line_classify
        ⟨st.db, st.rule_stack.take 2 ++ [{ line := some line, rule_call := none }]⟩
        (w0 :: R :: rest) := by
    unfold parse_line parse_line_words
    rw [hw, if_neg hlen2, if_neg (not_not_intro hsw), hdepth2]
  have hauxeq := parse_call_aux_spec
    ⟨st.db, st.rule_stack.take 2 ++ [{ line := some line, rule_call := none }]⟩
    (R, rR.calls.length) (st.db.add_call R rest).2
    (st.rule_stack.take 2) { line := some line, rule_call := none } rfl hlne
    f1 hf2 cS hcS c hreadc hcNone
  have hother : readCall (st.db.add_call R rest).2 cS = readCall st.db cS :=
    readCall_add_call_other st.db R rest rR hR cS hdis
  refine ⟨⟨(modifyCall (st.db.add_call R rest).2 (R, rR.calls.length)
      (fun k => { k with caller := some cS })).add_sub_call cS (R, rR.calls.length),
    st.rule_stack.take 2 ++
      [Frame.mk (some line) (some ((R : Name), rR.calls.length))]⟩, ?_, ?_, ?_, ?_, ?_⟩
  · rw [hline1]
    rw [parse_line_classify_call
      ⟨st.db, st.rule_stack.take 2 ++ [Frame.mk (some line) none]⟩
      (w0 :: R :: rest) hnd hns hndp hni]
    rw [parse_call_line_eq
      ⟨st.db, st.rule_stack.take 2 ++ [Frame.mk (some line) none]⟩
      (w0 :: R :: rest) rR hR]
    rw [hws1, hdrop, hfst, hauxeq]
    rfl
  · show (readCall ((modifyCall (st.db.add_call R rest).2 (R, rR.calls.length)
        (fun k => { k with caller := some cS })).add_sub_call cS
        (R, rR.calls.length)) (R, rR.calls.length)).map RuleCall.caller = _
    unfold Database.add_sub_call
    rw [readCall_modifyCall, if_neg hneq2, readCall_modifyCall, if_pos rfl, hreadc]
    rfl
  · show (readCall ((modifyCall (st.db.add_call R rest).2 (R, rR.calls.length)
        (fun k => { k with caller := some cS })).add_sub_call cS
        (R, rR.calls.length)) cS).map RuleCall.sub_calls = _
    unfold Database.add_sub_call
    rw [readCall_modifyCall, if_pos rfl, readCall_modifyCall, if_neg hneq, hother, hread]
    rfl
  · show (st.rule_stack.take 2 ++
        [Frame.mk (some line) (some ((R : Name), rR.calls.length))]).length = 3
    rw [List.length_append, hllen]
    rfl
  · show ((st.rule_stack.take 2 ++
        [Frame.mk (some line) (some ((R : Name), rR.calls.length))]).get? 2).map
        Frame.rule_call = _
    have hcat := List.get?_concat_length (st.rule_stack.take 2)
      (Frame.mk (some line) (some ((R : Name), rR.calls.length)))
    rw [hllen] at hcat
    rw [hcat]
    rfl

/-- A concrete parser state: rules `S` (called once at depth 1) and `R`
declared, obtained by running the parser over three trace lines. -/
def d5Fix : D5State :=
  match List.foldlM parse_line ⟨emptyDb, [{}]⟩ [">> rule S", ">> rule R", ">> S"] with
  | .ok st => st
  | .error _ => ⟨emptyDb, [{}]⟩

/-- C2 witness: feeding the depth-2 line `>>>> R` to the concrete state
links the fresh R call under the recorded S call. -/
theorem c2_nested_call_linking_witness :
    (readCall (match parse_line d5Fix ">>>> R" with
      | Except.ok st2 => st2.db
      | Except.error _ => emptyDb) ("R", 0)).map RuleCall.caller = some (some ("S", 0)) := by
  obtain ⟨st2, hok, hcaller, hsub, hlen, hframe⟩ :=
    c2_nested_call_linking d5Fix ">>>> R" ">>>>" "R" [] (by decide) (by decide) (by decide)
      (by decide) ⟨some ">> S", some ("S", 0)⟩ (by decide) ("S", 0) rfl
      ⟨"S", none, [], [[]], 0⟩ (by decide) "S" rfl ⟨"R", []⟩ (by decide)
      (by decide) (by decide) (by decide) (by decide)
  rw [hok]
  exact hcaller

/-! ## C6: the dependency-line classifier records the full cross product -/

theorem deps_mono_add_dependency (db : Database) (s t A y : Name)
    (h : y ∈ (readTarget db A).deps) :
    y ∈ (readTarget (db.add_dependency s t) A).deps := by
  unfold Database.add_dependency
  by_cases hg : s ∈ (readTarget db t).deps_rev
  · rw [if_pos hg]; exact h
  · rw [if_neg hg]
    rcases readTarget_modifyTarget_cases
      (modifyTarget db s (fun u => { u with deps := u.deps ++ [t] })) t
      (fun u => { u with deps_rev := insertIfAbsent s u.deps_rev }) A with h2 | ⟨_, h2⟩ <;>
      rcases readTarget_modifyTarget_cases db s
        (fun u => { u with deps := u.deps ++ [t] }) A with h1 | ⟨_, h1⟩ <;>
      simp only [h2, h1] <;>
      first
      | exact h
      | exact List.mem_append_left _ h

theorem deps_mono_get_target (db : Database) (n A y : Name)
    (h : y ∈ (readTarget db A).deps) :
    y ∈ (readTarget ((db.get_target n).2) A).deps := by
  rwa [readTarget_get_target]

theorem depInner_mono (x : Name) (ys : List Name) (db : Database) (A y : Name)
    (h : y ∈ (readTarget db A).deps) :
    y ∈ (readTarget (depInner x db ys) A).deps := by
  induction ys generalizing db with
  | nil => exact h
  | cons z zs ih =>
    show y ∈ (readTarget (depInner x (((db.get_target z).2).add_dependency x z) zs) A).deps
    exact ih _ (deps_mono_add_dependency _ x z A y (deps_mono_get_target db z A y h))

theorem depLoop_mono (xs ys : List Name) (db : Database) (A y : Name)
    (h : y ∈ (readTarget db A).deps) :
    y ∈ (readTarget (depLoop db xs ys) A).deps := by
  induction xs generalizing db with
  | nil => exact h
  | cons x2 xs ih =>
    show y ∈ (readTarget (depLoop (depInner x2 ((db.get_target x2).2) ys) xs ys) A).deps
    exact ih _ (depInner_mono x2 ys _ A y (deps_mono_get_target db x2 A y h))

theorem names_mono_add_dependency (db : Database) (s t m : Name) (h : m ∈ db.names) :
    m ∈ (db.add_dependency s t).names := by
  rwa [names_add_dependency]

theorem inv_depInner_step (db : Database) (x z : Name) (hInv : Inv db) (hx : x ∈ db.names) :
    Inv (((db.get_target z).2).add_dependency x z) :=
  inv_add_dependency _ x z (names_subset_get_target db z x hx) (mem_names_get_target db z)
    (inv_get_target db z hInv)

theorem depInner_props (x : Name) (ys : List Name) (db : Database)
    (hInv : Inv db) (hx : x ∈ db.names) :
    Inv (depInner x db ys) ∧ (∀ m ∈ db.names, m ∈ (depInner x db ys).names) ∧
    (∀ y ∈ ys, y ∈ (readTarget (depInner x db ys) x).deps) := by
  induction ys generalizing db with
  | nil => exact ⟨hInv, fun m hm => hm, by simp⟩
  | cons z zs ih =>
    have hInv1 : Inv (((db.get_target z).2).add_dependency x z) :=
      inv_depInner_step db x z hInv hx
    have hx1 : x ∈ (((db.get_target z).2).add_dependency x z).names :=
      names_mono_add_dependency _ x z x (names_subset_get_target db z x hx)
    obtain ⟨ihInv, ihNames, ihNew⟩ := ih _ hInv1 hx1
    refine ⟨ihInv, ?_, ?_⟩
    · intro m hm
      exact ihNames m (names_mono_add_dependency _ x z m (names_subset_get_target db z m hm))
    · intro y hy
      rcases List.mem_cons.mp hy with rfl | hy2
      · -- the edge for z is recorded by this step, then preserved
        show y ∈ (readTarget (depInner x (((db.get_target y).2).add_dependency x y) zs) x).deps
        apply depInner_mono
        have hgt : Inv ((db.get_target y).2) := inv_get_target db y hInv
        have hx2 : x ∈ ((db.get_target y).2).names := names_subset_get_target db y x hx
        have hy2 : y ∈ ((db.get_target y).2).names := mem_names_get_target db y
        have hchar := deps_add_dependency ((db.get_target y).2) x y x hx2
          ((hgt.2.2 x hx2 y hy2).1)
        rw [hchar]
        by_cases hc : x = x ∧ y ∉ (readTarget ((db.get_target y).2) x).deps
        · rw [if_pos hc]
          exact List.mem_append_right _ (List.mem_singleton.mpr rfl)
        · rw [if_neg hc]
          rcases not_and_or.mp hc with hc1 | hc1
          · exact absurd rfl hc1
          · exact not_not.mp hc1
      · exact ihNew y hy2

theorem depLoop_cross (xs ys : List Name) (db : Database) (hInv : Inv db) :
    ∀ x ∈ xs, ∀ y ∈ ys, y ∈ (readTarget (depLoop db xs ys) x).deps := by
  induction xs generalizing db with
  | nil => simp
  | cons x2 xs ih =>
    intro x hx y hy
    show y ∈ (readTarget (depLoop (depInner x2 ((db.get_target x2).2) ys) xs ys) x).deps
    have hInv1 : Inv ((db.get_target x2).2) := inv_get_target db x2 hInv
    have hx21 : x2 ∈ ((db.get_target x2).2).names := mem_names_get_target db x2
    obtain ⟨hInv2, hNames2, hNew2⟩ := depInner_props x2 ys _ hInv1 hx21
    rcases List.mem_cons.mp hx with rfl | hx2
    · exact depLoop_mono xs ys _ x y (hNew2 y hy)
    · exact ih _ hInv2 x hx2 y hy

/-- C6 counterexample: the all-lowercase keyword `depends` — a
case-insensitive variant of the dependency keyword, on a line of the
required shape — matches no classifier: the dependency-line classifier
rejects it and the whole line leaves the store untouched (no edge, no
target is even created). -/
theorem c6_counterexample :
    parse_dep_line emptyDb [">>", "depends", "a", ":", "b"] = none ∧
    parse_line ⟨emptyDb, [{}]⟩ ">> depends a : b" =
      Except.ok ⟨emptyDb, [⟨none, none⟩, ⟨some ">> depends a : b", none⟩]⟩ :=
  ⟨rfl, rfl⟩

/-- C6 (amended): for every word list with more than 3 tokens whose
second token is exactly `Depends` or `DEPENDS` (the only variants the
code accepts) and which contains a `:` token at index ≥ 3, the
dependency-line classifier fires and records, via the store's
get-or-create, a dependency edge from every token strictly between the
keyword and the first `:` to every token after the first `:` — the full
cross product. -/
theorem c6_dep_cross_product (db : Database) (hInv : Inv db) (ws : List String)
    (hlen : 3 < ws.length)
    (hkw : ws.get? 1 = some "Depends" ∨ ws.get? 1 = some "DEPENDS")
    (hc : ":" ∈ ws.drop 3) :
    ∃ db2, parse_dep_line db ws = some db2 ∧
      ∀ x ∈ (ws.take (ws.indexOf ":")).drop 2, ∀ y ∈ ws.drop (ws.indexOf ":" + 1),
        y ∈ (readTarget db2 x).deps := by
  refine ⟨depLoop db ((ws.take (ws.indexOf ":")).drop 2) (ws.drop (ws.indexOf ":" + 1)),
    ?_, ?_⟩
  · unfold parse_dep_line
    rw [if_pos ⟨hlen, hkw, hc⟩]
  · exact depLoop_cross _ _ db hInv

/-- C6 witness: the canonical `Depends` line records its single edge. -/
theorem c6_dep_cross_product_witness :
    "b" ∈ (readTarget ((parse_dep_line emptyDb [">>", "Depends", "a", ":", "b"]).getD emptyDb)
      "a").deps := by
  obtain ⟨db2, heq, hmem⟩ := c6_dep_cross_product emptyDb (by decide)
    [">>", "Depends", "a", ":", "b"] (by decide) (Or.inl rfl) (by decide)
  rw [heq]
  exact hmem "a" (by decide) "b" (by decide)

end JamJar
